import Mathlib

/-!
# go-srttools: block parser, block serializer and timestamp codec

A shallow embedding of `main.go` (functions `ReadBlock`, `Block.WriteBlock`,
`ParseTimestamp`, `Timestamp`, `FormatTimestamp`) together with models of the
Go library pieces they rest on (`bufio.Scanner` with the default `ScanLines`
split function, `strconv.Atoi`, `fmt.Fprintf`, `regexp`, `time.Unix` and
`Time.Format`).

Conventions.
* A Go `string` or `[]byte` is a sequence of bytes; a byte is given by its
  numeric value (`10` is LF, `13` is CR, `48`..`57` are the digits).
* `int` and `time.Duration` are 64-bit signed integers, modelled by `Int`;
  `wrap64` is applied where the Go arithmetic can leave the 64-bit range.
* Pointers returned together with an `error` become `Except`-like results.
-/

set_option maxRecDepth 100000

namespace SrtTools

/-! ## Bytes -/

/-- A Go `string` or `[]byte`: the list of its bytes, each byte given by its value. -/
abbrev Bytes := List Nat

/-- The bytes (UTF-8) of a string literal. -/
def str (s : String) : Bytes := s.toUTF8.data.toList.map UInt8.toNat

/-- The line terminator the serializer writes, `"\r\n"`. -/
def crlf : Bytes := [13, 10]

/-- ASCII decimal digit: the class `\d` of Go regular expressions and the digits `strconv`
accepts. -/
def isDigit (b : Nat) : Bool := decide (48 ≤ b) && decide (b ≤ 57)

/-- The class `\s` of Go regular expressions: `[\t\n\f\r ]`. -/
def isSpace (b : Nat) : Bool := b == 9 || b == 10 || b == 12 || b == 13 || b == 32

/-- The class `.` of Go regular expressions (without the `s` flag): any byte but LF. -/
def isDot (b : Nat) : Bool := b != 10

/-- A one-byte literal of a regular expression. -/
def isByte (c : Nat) (b : Nat) : Bool := b == c

/-! ## strconv and fmt: integers -/

/-- Reduction of an integer to the range of a 64-bit signed machine integer (two's complement). -/
def wrap64 (x : Int) : Int := (x + 2 ^ 63) % 2 ^ 64 - 2 ^ 63

/-- Value of a string of decimal digits, most significant digit first. -/
def decimalValue (ds : Bytes) : Nat := ds.foldl (fun acc d => acc * 10 + (d - 48)) 0

/-- Model of `strconv.Atoi` on a 64-bit platform: an optional sign `+` or `-`, then one or more
decimal digits and nothing else; `none` stands for a syntax error or a value out of the range of
`int`. -/
def Atoi (s : Bytes) : Option Int :=
  let signed : Bool × Bytes :=
    match s with
    | 45 :: rest => (true, rest)
    | 43 :: rest => (false, rest)
    | _ => (false, s)
  let digits := signed.2
  if digits.length = 0 then none
  else if digits.all isDigit = false then none
  else
    let n : Int := if signed.1 then -(decimalValue digits : Int) else (decimalValue digits : Int)
    if -(2 ^ 63 : Int) ≤ n ∧ n < 2 ^ 63 then some n else none

/-- Decimal digits of `n`, least significant first; `fuel` bounds the number of digits. -/
def digitsRev : Nat → Nat → List Nat
  | 0, _ => []
  | fuel + 1, n => (48 + n % 10) :: (if n < 10 then [] else digitsRev fuel (n / 10))

/-- Decimal rendering of a natural number, without leading zeros (`"0"` for zero). -/
def formatNat (n : Nat) : Bytes := (digitsRev (n + 1) n).reverse

/-- Model of the verb `%d` of `fmt` applied to an `int`. -/
def formatInt (i : Int) : Bytes :=
  if i < 0 then 45 :: formatNat (-i).toNat else formatNat i.toNat

/-! ## time: `time.Unix` and `Time.Format("15:04:05.000")` -/

/-- The constant `time.Millisecond`, in nanoseconds. -/
def Millisecond : Int := 1000000

/-- The constant `time.Second`, in nanoseconds. -/
def Second : Int := 1000 * Millisecond

/-- The constant `time.Minute`, in nanoseconds. -/
def Minute : Int := 60 * Second

/-- The constant `time.Hour`, in nanoseconds. -/
def Hour : Int := 60 * Minute

/-- Model of `time.Unix(sec, nsec)`: the pair (seconds since the epoch, nanoseconds within the
second), normalised as the Go function does (`/` of Go truncates toward zero). -/
def timeUnix (sec nsec : Int) : Int × Int :=
  if nsec < 0 ∨ nsec ≥ 1000000000 then
    let n := nsec.tdiv 1000000000
    let sec := sec + n
    let nsec := nsec - n * 1000000000
    if nsec < 0 then (sec - 1, nsec + 1000000000) else (sec, nsec)
  else (sec, nsec)

/-- Model of `appendInt(b, x, width)` of package `time` for `x ≥ 0`: the decimal digits of `x`,
padded on the left with zeros up to `width`. -/
def appendInt (x width : Nat) : Bytes :=
  List.replicate (width - (formatNat x).length) 48 ++ formatNat x

/-- Model of `Time.Format("15:04:05.000")` for a time in UTC given by `timeUnix`: hour of the day,
minute, second and, after a period, the first three of the nine digits of the nanoseconds. The
seconds of the day are the seconds since the epoch modulo 86400 (the epoch is a midnight). -/
def formatClock (t : Int × Int) : Bytes :=
  let secOfDay : Nat := (t.1 % 86400).toNat
  let hour := secOfDay / 3600
  let min := (secOfDay - hour * 3600) / 60
  let sec := secOfDay - hour * 3600 - min * 60
  appendInt hour 2 ++ [58] ++ appendInt min 2 ++ [58] ++ appendInt sec 2 ++ [46] ++
    (appendInt t.2.toNat 9).take 3

/-- Model of `strings.Replace(s, old, new, -1)` for one-byte `old` and `new`. -/
def replaceByte (s : Bytes) (old new : Nat) : Bytes :=
  s.map (fun b => if b = old then new else b)

/-- The function `FormatTimestamp` of `main.go`: the duration is taken as an offset to the Unix
epoch, formatted in UTC with layout `15:04:05.000`, and the period is replaced by a comma. -/
def FormatTimestamp (dur : Int) : Bytes :=
  let timestamp := timeUnix 0 dur
  replaceByte (formatClock timestamp) 46 44

/-! ## regexp: a backtracking matcher with Go's leftmost-first semantics -/

/-- Abstract syntax of the regular expressions needed for `TIMESTAMP_REGEXP_STRING`. -/
inductive Regex where
  /-- One byte of a class: a literal, `\d`, `\s` or `.`. -/
  | cls (p : Nat → Bool)
  /-- The empty expression. -/
  | empty
  /-- Concatenation. -/
  | cat (r₁ r₂ : Regex)
  /-- Greedy repetition `c*` of a one-byte class. -/
  | star (p : Nat → Bool)
  /-- Capturing group `( )`. -/
  | group (r : Regex)
  /-- The assertion `$` without the `m` flag: end of the text. -/
  | eot

/-- Concatenation of a list of expressions. -/
def Regex.seq : List Regex → Regex
  | [] => .empty
  | r :: rs => .cat r (Regex.seq rs)

/-- Bounded repetition `r{n}`. -/
def Regex.rep : Nat → Regex → Regex
  | 0, _ => .empty
  | n + 1, r => .cat r (Regex.rep n r)

/-- Greedy `c*` followed by the continuation `k`: the longest run of bytes of the class is tried
first, then shorter ones. -/
def Regex.starK {α : Type} (p : Nat → Bool) (k : Bytes → Option α) : Bytes → Option α
  | [] => k []
  | c :: s =>
    if p c then
      match Regex.starK p k s with
      | some r => some r
      | none => k (c :: s)
    else k (c :: s)

/-- Backtracking match of `r` at the head of `s`, in continuation-passing style: `caps` holds the
submatches of the groups closed so far, `k` matches what follows `r`. The first success in
backtracking order is returned, as Go's `regexp` does. -/
def Regex.run : Regex → Bytes → List Bytes → (Bytes → List Bytes → Option (List Bytes)) →
    Option (List Bytes)
  | .cls p, s, caps, k =>
    match s with
    | [] => none
    | c :: s' => if p c then k s' caps else none
  | .empty, s, caps, k => k s caps
  | .cat r₁ r₂, s, caps, k => Regex.run r₁ s caps (fun s' caps' => Regex.run r₂ s' caps' k)
  | .star p, s, caps, k => Regex.starK p (fun s' => k s' caps) s
  | .group r, s, caps, k =>
    Regex.run r s caps (fun s' caps' => k s' (caps' ++ [s.take (s.length - s'.length)]))
  | .eot, s, caps, k => if s.length = 0 then k s caps else none

/-- Match anchored at the start of `s`: the matched text followed by the submatches. -/
def Regex.matchAt (re : Regex) (s : Bytes) : Option (List Bytes) :=
  re.run s [] (fun s' caps => some (s.take (s.length - s'.length) :: caps))

/-- Model of `(*Regexp).FindStringSubmatch`: the leftmost match, as the slice holding the matched
text and the submatches; the empty slice (`nil`) when there is no match. -/
def Regex.FindStringSubmatch (re : Regex) : Bytes → List Bytes
  | [] => (re.matchAt []).getD []
  | c :: s =>
    match re.matchAt (c :: s) with
    | some m => m
    | none => Regex.FindStringSubmatch re s

/-- The expression `(\d{2}):(\d{2}):(\d{2}),(\d{3})`, which occurs twice in the regexp. -/
def stampRegex : Regex :=
  Regex.seq [.group (Regex.rep 2 (.cls isDigit)), .cls (isByte 58),
    .group (Regex.rep 2 (.cls isDigit)), .cls (isByte 58),
    .group (Regex.rep 2 (.cls isDigit)), .cls (isByte 44),
    .group (Regex.rep 3 (.cls isDigit))]

/-- The constant `TIMESTAMP_REGEXP` of `main.go`, compiled from
`(\d{2}):(\d{2}):(\d{2}),(\d{3})\s-->\s(\d{2}):(\d{2}):(\d{2}),(\d{3})\s*(.*)$`. -/
def TIMESTAMP_REGEXP : Regex :=
  Regex.seq [stampRegex, .cls isSpace, .cls (isByte 45), .cls (isByte 45), .cls (isByte 62),
    .cls isSpace, stampRegex, .star isSpace, .group (.star isDot), .eot]

/-! ## Timestamp codec of `main.go` -/

/-- The field whose conversion failed in `Timestamp`. -/
inductive TimestampError where
  | hrs
  | mins
  | secs
  | msec
  deriving DecidableEq, Repr

/-- Result of `Timestamp`: `(nil, err)` or `(&dur, nil)`. -/
inductive TimestampResult where
  | error (e : TimestampError)
  | ok (dur : Int)
  deriving DecidableEq, Repr

/-- The function `Timestamp` of `main.go`: the four fields are converted with `Atoi` and combined into a
duration in nanoseconds (64-bit arithmetic). -/
def Timestamp (hrs min sec msec : Bytes) : TimestampResult :=
  match Atoi hrs with
  | none => .error .hrs
  | some hrsInt =>
    match Atoi min with
    | none => .error .mins
    | some minInt =>
      match Atoi sec with
      | none => .error .secs
      | some secInt =>
        match Atoi msec with
        | none => .error .msec
        | some msecInt =>
          .ok (wrap64 (Hour * hrsInt + Minute * minInt + Second * secInt + Millisecond * msecInt))

/-- The errors of `ParseTimestamp`. -/
inductive ParseError where
  /-- Error "Could not parse timestamp header, expected 10 matches". -/
  | header
  /-- Error "Could not parse from". -/
  | parseFrom (e : TimestampError)
  /-- Error "Could not parse to". -/
  | parseTo (e : TimestampError)
  deriving DecidableEq, Repr

/-- Result of `ParseTimestamp`: `(nil, nil, nil, err)` or `(from, to, posInfo, nil)`, where a nil
`posInfo` is `none`. -/
inductive ParseResult where
  | error (e : ParseError)
  | ok (start stop : Int) (posInfo : Option Bytes)
  deriving DecidableEq, Repr

/-- The function `ParseTimestamp` of `main.go`. -/
def ParseTimestamp (input : Bytes) : ParseResult :=
  let found := TIMESTAMP_REGEXP.FindStringSubmatch input
  if found.length ≠ 10 then .error .header
  else
    match Timestamp (found.getD 1 []) (found.getD 2 []) (found.getD 3 [])
        (found.getD 4 []) with
    | .error e => .error (.parseFrom e)
    | .ok start =>
      match Timestamp (found.getD 5 []) (found.getD 6 []) (found.getD 7 [])
          (found.getD 8 []) with
      | .error e => .error (.parseTo e)
      | .ok stop =>
        let posInfo := if (found.getD 9 []).length ≠ 0 then some (found.getD 9 []) else none
        .ok start stop posInfo

/-! ## bufio.Scanner with the default split function `ScanLines` -/

/-- The constant `bufio.MaxScanTokenSize`: the size the buffer of a scanner can grow to. -/
def maxScanTokenSize : Nat := 65536

/-- The function `dropCR` of package `bufio`: one trailing CR is removed. -/
def dropCR (data : Bytes) : Bytes :=
  if data.getLast? = some 13 then data.dropLast else data

/-- What the successive calls of `Scan` deliver on the input `data`, where `cur` holds the
bytes of the current line read so far: `some line` is a call that returns `true` with the token
`line`, `none` a call that returns `false` and records an error. After the last entry every
call returns `false`.

`ScanLines` ends a line at LF and drops one CR before it; the last line needs no LF. When the
buffer is full (`maxScanTokenSize` bytes) and holds no LF, `Scan` fails with `ErrTooLong`; the
call after that one delivers the buffered bytes as a last token. -/
def scanLines (cur : Bytes) : Bytes → List (Option Bytes)
  | [] => if cur.length = 0 then [] else [some (dropCR cur)]
  | b :: rest =>
    if b = 10 then some (dropCR cur) :: scanLines [] rest
    else if cur.length + 1 ≥ maxScanTokenSize then [none, some (dropCR (cur ++ [b]))]
    else scanLines (cur ++ [b]) rest

/-- State of a `bufio.Scanner` as its client sees it. -/
structure Scanner where
  /-- The token of the last call of `Scan`: the result of `Bytes()` and `Text()`; empty before
  the first call and after a call that returned `false`. -/
  token : Bytes
  /-- Whether `Err()` is non-nil. -/
  err : Bool
  /-- The outcomes of the calls of `Scan` to come (see `scanLines`); a reader that fails
  contributes a `none`. -/
  pending : List (Option Bytes)
  deriving DecidableEq, Repr

/-- Model of `bufio.NewScanner(bytes.NewReader(input))`: a reader that never fails. -/
def NewScanner (input : Bytes) : Scanner :=
  { token := [], err := false, pending := scanLines [] input }

/-- Model of `(*Scanner).Scan`: the result and the new state of the scanner. -/
def Scanner.Scan (sc : Scanner) : Bool × Scanner :=
  match sc.pending with
  | [] => (false, { sc with token := [] })
  | none :: rest => (false, { token := [], err := true, pending := rest })
  | some line :: rest => (true, { sc with token := line, pending := rest })

/-! ## Blocks: `ReadBlock` -/

/-- The type `Block` of `main.go`; a nil `PosInfo` is `none`, and `Text` holds the strings the
pointers of the Go slice point to. -/
structure Block where
  Index : Int
  From : Int
  To : Int
  PosInfo : Option Bytes
  Text : List Bytes
  deriving DecidableEq, Repr

/-- The errors of `ReadBlock`, in the order of the source. -/
inductive ReadError where
  /-- Error "Error occured while reading file". -/
  | readFile
  /-- Error "Could not parse block index". -/
  | parseIndex
  /-- Error "Could not read timestamp". -/
  | readTimestamp
  /-- Error "Could not parse timestamp". -/
  | parseTimestamp (e : ParseError)
  /-- Error "Could not read text". -/
  | readText
  deriving DecidableEq, Repr

/-- Result of `ReadBlock`: `(nil, err)`, `(nil, nil)` or `(block, nil)`. -/
inductive ReadResult where
  | error (e : ReadError)
  | eof
  | block (b : Block)
  deriving DecidableEq, Repr

/-- First loop of `ReadBlock` ("Ignore empty lines"): `none` when the loop is left by `break`,
`some r` when the function returns `r` from inside the loop. Every turn that does not leave
the loop takes one entry of `pending`, and `fuel` bounds the number of turns. -/
def ReadBlock.skipEmpty : Nat → Scanner → Option ReadResult × Scanner
  | 0, sc => (some (.error .readFile), sc)
  | fuel + 1, sc =>
    if sc.token.length ≠ 0 then (none, sc)
    else
      let scanned := sc.Scan
      let ok := scanned.1
      let sc := scanned.2
      if !ok && sc.err then (some (.error .readFile), sc)
      else if !ok && !sc.err then (some .eof, sc)
      else ReadBlock.skipEmpty fuel sc

/-- Second loop of `ReadBlock` ("Read the actual subtitle text"): `none` when the function
returns the error "Could not read text" from inside the loop, else the text collected when the
loop is left by `break`. -/
def ReadBlock.readText : Nat → Scanner → List Bytes → Option (List Bytes) × Scanner
  | 0, sc, text => (some text, sc)
  | fuel + 1, sc, text =>
    let scanned := sc.Scan
    let ok := scanned.1
    let sc := scanned.2
    if !ok && sc.err then (none, sc)
    else if !ok && !sc.err then (some text, sc)
    else if sc.token.length = 0 then (some text, sc)
    else ReadBlock.readText fuel sc (text ++ [sc.token])

/-- The function `ReadBlock` of `main.go`: the result and the state the scanner is left in. Both
loops get more fuel than the scanner has outcomes pending, so neither runs out of it (see
`skipEmpty_fuel` and `readText_fuel`). -/
def ReadBlock (sc : Scanner) : ReadResult × Scanner :=
  match ReadBlock.skipEmpty (sc.pending.length + 1) sc with
  | (some r, sc) => (r, sc)
  | (none, sc) =>
    let indexStr := sc.token
    match Atoi indexStr with
    | none => (.error .parseIndex, sc)
    | some index =>
      let scanned := sc.Scan
      let sc := scanned.2
      if !scanned.1 then (.error .readTimestamp, sc)
      else
        match ParseTimestamp sc.token with
        | .error e => (.error (.parseTimestamp e), sc)
        | .ok start stop posInfo =>
          match ReadBlock.readText (sc.pending.length + 1) sc [] with
          | (none, sc) => (.error .readText, sc)
          | (some text, sc) =>
            (.block { Index := index, From := start, To := stop, PosInfo := posInfo, Text := text },
              sc)

/-- Successive calls of `ReadBlock` on one scanner, as the driver and the tests make them:
the results of the first `n` calls. -/
def ReadBlocks : Nat → Scanner → List ReadResult
  | 0, _ => []
  | n + 1, sc => (ReadBlock sc).1 :: ReadBlocks n (ReadBlock sc).2

/-! ## Blocks: `WriteBlock` -/

/-- An `io.Writer`: the bytes it has taken so far and the outcomes of the calls of `Write` to
come, `none` for a call that takes all the bytes and `some n` for a call that takes at most `n`
bytes and returns an error; once the list is used up every call succeeds. -/
structure Writer where
  out : Bytes
  script : List (Option Nat)
  deriving DecidableEq, Repr

/-- One call of `Write`, as `fmt.Fprintf` and `fmt.Fprint` issue for the formatted bytes `p`:
whether an error is returned, and the new state of the writer. -/
def Writer.Write (w : Writer) (p : Bytes) : Bool × Writer :=
  match w.script with
  | [] => (false, { w with out := w.out ++ p })
  | none :: rest => (false, { out := w.out ++ p, script := rest })
  | some n :: rest => (true, { out := w.out ++ p.take n, script := rest })

/-- The errors of `WriteBlock`. -/
inductive WriteError where
  /-- Error "Could not write index". -/
  | writeIndex
  /-- Error "Could not write timestamp". -/
  | writeTimestamp
  /-- Error "Could not write text". -/
  | writeText
  deriving DecidableEq, Repr

/-- The loop of `WriteBlock` over `b.Text`. -/
def WriteBlock.writeText : List Bytes → Writer → Option WriteError × Writer
  | [], wr => (none, wr)
  | text :: rest, wr =>
    let written := wr.Write (text ++ crlf)
    if written.1 then (some .writeText, written.2)
    else WriteBlock.writeText rest written.2

/-- The method `Block.WriteBlock` of `main.go`: the error returned (`none` for nil) and the state
of the writer. The result of the write that ends the timing line is not looked at. -/
def Block.WriteBlock (b : Block) (wr : Writer) : Option WriteError × Writer :=
  let written := wr.Write (formatInt b.Index ++ crlf)
  if written.1 then (some .writeIndex, written.2)
  else
    let written := written.2.Write (FormatTimestamp b.From ++ str " --> " ++ FormatTimestamp b.To)
    if written.1 then (some .writeTimestamp, written.2)
    else
      let written :=
        match b.PosInfo with
        | some posInfo => written.2.Write (str " " ++ posInfo ++ crlf)
        | none => written.2.Write crlf
      WriteBlock.writeText b.Text written.2

/-! ## Definitions used to state the properties -/

/-- The `width` low decimal digits of `x`, most significant first: a field of exactly `width`
digits, zero-padded. -/
def zeroPad : Nat → Nat → Bytes
  | 0, _ => []
  | width + 1, x => zeroPad width (x / 10) ++ [48 + x % 10]

/-- The text `HH:MM:SS,mmm` of a timestamp with the given fields. -/
def stampText (h m s ms : Nat) : Bytes :=
  zeroPad 2 h ++ [58] ++ zeroPad 2 m ++ [58] ++ zeroPad 2 s ++ [44] ++ zeroPad 3 ms

/-- Whether the bytes at the head of `s` belong, one by one, to the classes of `pat`. -/
def matchesPrefix : List (Nat → Bool) → Bytes → Bool
  | [], _ => true
  | _ :: _, [] => false
  | p :: pat, b :: s => p b && matchesPrefix pat s

/-- Expressions without `*` and `$`: they match a fixed number of bytes. -/
def Regex.fixed : Regex → Bool
  | .cls _ => true
  | .empty => true
  | .cat r₁ r₂ => r₁.fixed && r₂.fixed
  | .star _ => false
  | .group r => r.fixed
  | .eot => false

/-- The classes of the bytes an expression of fixed width matches. -/
def Regex.classes : Regex → List (Nat → Bool)
  | .cls p => [p]
  | .empty => []
  | .cat r₁ r₂ => r₁.classes ++ r₂.classes
  | .star _ => []
  | .group r => r.classes
  | .eot => []

/-- The submatches of the groups of an expression of fixed width that matches at the head
of `s`. -/
def Regex.captures : Regex → Bytes → List Bytes
  | .cls _, _ => []
  | .empty, _ => []
  | .cat r₁ r₂, s => r₁.captures s ++ r₂.captures (s.drop r₁.classes.length)
  | .star _, _ => []
  | .group r, s => r.captures s ++ [s.take r.classes.length]
  | .eot, _ => []

/-- The expression `\s*(.*)$` that ends the regexp. -/
def tailRegexes : List Regex := [.star isSpace, .group (.star isDot), .eot]

/-- The part of the regexp before `\s*(.*)$`: two timestamps around the arrow. -/
def coreRegexes : List Regex :=
  [stampRegex, .cls isSpace, .cls (isByte 45), .cls (isByte 45), .cls (isByte 62), .cls isSpace,
    stampRegex]

/-- The shape `dd:dd:dd,ddd` of a timestamp, byte by byte. -/
def stampPattern : List (Nat → Bool) :=
  [isDigit, isDigit, isByte 58, isDigit, isDigit, isByte 58, isDigit, isDigit, isByte 44,
    isDigit, isDigit, isDigit]

/-- The shape of the 29 bytes `dd:dd:dd,ddd --> dd:dd:dd,ddd`, where either blank is any one
byte of `[\t\n\f\r ]`. -/
def timingPattern : List (Nat → Bool) :=
  stampPattern ++ [isSpace, isByte 45, isByte 45, isByte 62, isSpace] ++ stampPattern

/-- The eight digit groups of 29 bytes of the shape `timingPattern` at the head of `s`. -/
def digitGroups (s : Bytes) : List Bytes :=
  [s.take 2, (s.drop 3).take 2, (s.drop 6).take 2, (s.drop 9).take 3,
    (s.drop 17).take 2, (s.drop 20).take 2, (s.drop 23).take 2, (s.drop 26).take 3]

/-- The first (longest) suffix of the input that satisfies `p`: where a search from left to right
succeeds. -/
def firstSuffix (p : Bytes → Bool) : Bytes → Option Bytes
  | [] => if p [] then some [] else none
  | b :: s => if p (b :: s) then some (b :: s) else firstSuffix p s

/-- Whether the regexp matches at the head of `s`: 29 bytes of the shape `timingPattern`, then
blanks, then no LF up to the end. -/
def accepts (s : Bytes) : Bool :=
  matchesPrefix timingPattern s && ((s.drop 29).dropWhile isSpace).all isDot

/-- The duration a timestamp `dd:dd:dd,ddd` at the head of `t` stands for, in nanoseconds. -/
def stampNanos (t : Bytes) : Int :=
  Hour * (decimalValue (t.take 2) : Int) + Minute * (decimalValue ((t.drop 3).take 2) : Int) +
    Second * (decimalValue ((t.drop 6).take 2) : Int) +
    Millisecond * (decimalValue ((t.drop 9).take 3) : Int)

/-- The position info for the text `rest` that follows the second timestamp: `rest` without its
leading blanks when that is not empty. -/
def posInfoOf (rest : Bytes) : Option Bytes :=
  if (rest.dropWhile isSpace).length ≠ 0 then some (rest.dropWhile isSpace) else none

/-- The text of a block: index line, timing line and text lines, each ended by CR LF. -/
def blockText (indexStr timing : Bytes) (text : List Bytes) : Bytes :=
  indexStr ++ crlf ++ timing ++ crlf ++ (text.map (fun line => line ++ crlf)).flatten

/-- The position part of a timing line as the serializer writes it: nothing, or one space and
the position text. -/
def posText : Option Bytes → Bytes
  | none => []
  | some posInfo => str " " ++ posInfo

/-- The timing line `HH:MM:SS,mmm --> HH:MM:SS,mmm` for the given fields, followed by the
position part. -/
def timingText (h m s ms h' m' s' ms' : Nat) (posInfo : Option Bytes) : Bytes :=
  stampText h m s ms ++ (str " --> " ++ (stampText h' m' s' ms' ++ posText posInfo))

/-- The leftmost place of the input where 29 bytes of the shape `pat` start, as the rest of the
input from there on. -/
def firstOccurrence (pat : List (Nat → Bool)) (input : Bytes) : Option Bytes :=
  firstSuffix (matchesPrefix pat) input

/-- The lines of a block in the input, as text. -/
structure SourceBlock where
  indexStr : Bytes
  timing : Bytes
  text : List Bytes
  deriving DecidableEq, Repr

/-- The outcomes of `Scan` for the lines of a block. -/
def SourceBlock.lines (src : SourceBlock) : List (Option Bytes) :=
  some src.indexStr :: some src.timing :: src.text.map some

/-- A run of `n` empty lines. -/
def blankLines (n : Nat) : List (Option Bytes) := List.replicate n (some [])

/-- The lines of a sequence of blocks: each block but the last is followed by `gap + 1` empty
lines, the last one by `gap` empty lines and the end of the input. -/
def srtLines : List (SourceBlock × Block × Nat) → List (Option Bytes)
  | [] => []
  | (src, _, gap) :: rest =>
    src.lines ++ (blankLines (if rest.length = 0 then gap else gap + 1) ++ srtLines rest)

/-! ## Data of `main_test.go` -/

/-- The constant `BLOCK_1` of the tests. -/
def BLOCK_1 : Bytes :=
  str "1\r\n00:00:23,065 --> 00:00:25,363\r\nJennifer, this is Carrie\r\nMathison and Peter Quinn."

/-- The constant `BLOCK_2` of the tests. -/
def BLOCK_2 : Bytes :=
  str "2\r\n00:00:25,442 --> 00:00:28,116  X1:63 X2:223 Y1:43 Y2:58\r\nThey were there with Sandy\r\nwhen it happened."

/-- The constant `SRT_INPUT` of the tests. -/
def SRT_INPUT : Bytes := BLOCK_1 ++ crlf ++ crlf ++ crlf ++ BLOCK_2 ++ crlf

/-- The constant `TIMESTAMP_INPUT` of the tests. -/
def TIMESTAMP_INPUT : Bytes := str "01:12:23,442 --> 01:12:28,116"

/-- The constant `TIMESTAMP_POS_INPUT` of the tests. -/
def TIMESTAMP_POS_INPUT : Bytes := str "01:12:23,442 --> 01:12:28,116  X1:63 X2:223 Y1:43 Y2:58"

/-- The block the tests expect for `BLOCK_1`. -/
def block1 : Block :=
  { Index := 1, From := 23065 * Millisecond, To := 25363 * Millisecond, PosInfo := none,
    Text := [str "Jennifer, this is Carrie", str "Mathison and Peter Quinn."] }

/-- The block the tests expect for `BLOCK_2`. -/
def block2 : Block :=
  { Index := 2, From := 25442 * Millisecond, To := 28116 * Millisecond,
    PosInfo := some (str "X1:63 X2:223 Y1:43 Y2:58"),
    Text := [str "They were there with Sandy", str "when it happened."] }

/-- A writer that has taken nothing yet and accepts every write, such as an empty
`bytes.Buffer`. -/
def emptyBuffer : Writer := { out := [], script := [] }

/-! ## Rescaling: `StretchTimestamp` and `Block.Stretch` -/

/-- The constant `time.Nanosecond`. -/
def Nanosecond : Int := 1

/-- The operations on `float64` that `StretchTimestamp` uses, for a type `F` of floating-point
values: the conversion `float64(dur)` of a duration, the quotient, the product, and the
conversion `time.Duration(x)` back to a 64-bit integer. They are functions of their arguments;
what they compute (the rounding of IEEE 754, the conversion out of range) is left open here,
and `binary64` below gives the operations of IEEE 754. -/
structure Float64Ops (F : Type) where
  ofInt64 : Int → F
  div : F → F → F
  mul : F → F → F
  toInt64 : F → Int

/-- The function `StretchTimestamp` of `main.go`. -/
def StretchTimestamp {F : Type} (fl : Float64Ops F) (dur : Int) (fpsSrc fpsDst : F) : Int :=
  let coeff := fl.div fpsSrc fpsDst
  let newNsec := fl.mul (fl.ofInt64 dur) coeff
  let newDur := wrap64 (Nanosecond * fl.toInt64 newNsec)
  newDur

/-- The method `Block.Stretch` of `main.go`: the block after the two assignments. -/
def Block.Stretch {F : Type} (fl : Float64Ops F) (b : Block) (fpsSrc fpsDst : F) : Block :=
  let b := { b with From := StretchTimestamp fl b.From fpsSrc fpsDst }
  { b with To := StretchTimestamp fl b.To fpsSrc fpsDst }

/-! ## The type `float64` -/

/-- A value of the type `float64` (IEEE 754 binary64): the finite number
`(-1)^neg * m * 2^e`, an infinity, or a NaN. The values of binary64 are those with
`m < 2^53` and `-1074 ≤ e ≤ 971`; the operations below return such values only. -/
inductive Float64 where
  | finite (neg : Bool) (m : Nat) (e : Int)
  | inf (neg : Bool)
  | nan

/-- The number of binary digits of `n`, with `fuel` steps. -/
def bitLength.go : Nat → Nat → Nat
  | 0, _ => 0
  | fuel + 1, n => if n = 0 then 0 else bitLength.go fuel (n / 2) + 1

/-- The number of binary digits of `n`: `0` for `0`, and otherwise the `k` with
`2^(k-1) ≤ n < 2^k`. -/
def bitLength (n : Nat) : Nat := bitLength.go n n

/-- The integer nearest to `num / den`, the even one of the two when it is halfway. -/
def roundHalfEven (num den : Nat) : Nat :=
  let q := num / den
  let r := num % den
  if 2 * r < den then q
  else if den < 2 * r then q + 1
  else if q % 2 = 0 then q else q + 1

/-- The exponent of the last binary digit that binary64 keeps of `num / den`, for positive
`num` and `den`: 52 below the exponent of the leading digit, and `-1074` at least (the
subnormal numbers). -/
def Float64.exponent (num den : Nat) : Int :=
  let l : Int := (bitLength num : Int) - (bitLength den : Int)
  let lead : Int := if den * 2 ^ l.toNat ≤ num * 2 ^ (-l).toNat then l else l - 1
  max (lead - 52) (-1074)

/-- Rounding to `float64`: the value of binary64 nearest to `(-1)^neg * num / den`, ties to the
even mantissa, an infinity when the rounded number is `2^1024` or more (`den` is positive). -/
def Float64.round (neg : Bool) (num den : Nat) : Float64 :=
  if num = 0 then .finite neg 0 (-1074)
  else
    let e := Float64.exponent num den
    let m := roundHalfEven (num * 2 ^ (-e).toNat) (den * 2 ^ e.toNat)
    let (m, e) := if m = 2 ^ 53 then (2 ^ 52, e + 1) else (m, e)
    if 971 < e then .inf neg else .finite neg m e

/-- The conversion of a constant `num / den`, like `23.967`, to `float64`. -/
def Float64.ofDecimal (num den : Nat) : Float64 := Float64.round false num den

/-- The conversion `float64(i)` of an integer. -/
def Float64.ofInt64 (i : Int) : Float64 := Float64.round (decide (i < 0)) i.natAbs 1

/-- The quotient `x / y` of `float64`. -/
def Float64.div : Float64 → Float64 → Float64
  | .nan, _ => .nan
  | _, .nan => .nan
  | .inf _, .inf _ => .nan
  | .inf s, .finite t _ _ => .inf (xor s t)
  | .finite s _ _, .inf t => .finite (xor s t) 0 (-1074)
  | .finite s m e, .finite t m' e' =>
    if m' = 0 then (if m = 0 then .nan else .inf (xor s t))
    else Float64.round (xor s t) (m * 2 ^ (e - e').toNat) (m' * 2 ^ (e' - e).toNat)

/-- The product `x * y` of `float64`. -/
def Float64.mul : Float64 → Float64 → Float64
  | .nan, _ => .nan
  | _, .nan => .nan
  | .inf s, .inf t => .inf (xor s t)
  | .inf s, .finite t m _ => if m = 0 then .nan else .inf (xor s t)
  | .finite s m _, .inf t => if m = 0 then .nan else .inf (xor s t)
  | .finite s m e, .finite t m' e' =>
    Float64.round (xor s t) (m * m' * 2 ^ (e + e').toNat) (2 ^ (-(e + e')).toNat)

/-- The integer part of a finite `float64`, the fraction discarded (truncation toward zero);
nothing for an infinity or a NaN. -/
def Float64.truncate : Float64 → Option Int
  | .finite neg m e =>
    let a : Nat := m * 2 ^ e.toNat / 2 ^ (-e).toNat
    some (if neg then -(a : Int) else (a : Int))
  | _ => none

/-- The conversion `time.Duration(x)` of a `float64` to a 64-bit integer: the fraction is
discarded; when the value has no integer part or that does not fit 64 bits the result depends
on the implementation and is `conv x`. -/
def Float64.toInt64 (conv : Float64 → Int) (x : Float64) : Int :=
  match x.truncate with
  | some n => if -(2 ^ 63 : Int) ≤ n ∧ n < 2 ^ 63 then n else conv x
  | none => conv x

/-- The operations of `float64`, given what the implementation does for a conversion to
integer out of range. -/
def binary64 (conv : Float64 → Int) : Float64Ops Float64 :=
  { ofInt64 := Float64.ofInt64, div := Float64.div, mul := Float64.mul,
    toInt64 := Float64.toInt64 conv }

/-- A writer that takes two writes and fails on the third one without taking a byte. -/
def failsOnThirdWrite : Writer := { out := [], script := [none, none, some 0] }

/-- A block without position info and without text. -/
def bareBlock : Block := { Index := 1, From := 0, To := Second, PosInfo := none, Text := [] }

/-- A text line of 65535 letters `x`. -/
def longLine : Bytes := List.replicate 65535 120

/-- A block whose only text line is `longLine`. -/
def longBlock : Block :=
  { Index := 1, From := 0, To := Second, PosInfo := none, Text := [longLine] }

/-- A block with a negative start, an end after more than 24 hours that is no whole number of
milliseconds, and a position info. -/
def oddBlock : Block :=
  { Index := -3, From := -1, To := 25 * Hour + 1, PosInfo := some (str "X1:63"),
    Text := [str "text"] }

/-! # Theorems -/

/-! ## Decimal digits -/

theorem digitsRev_fuel : ∀ (f g n : Nat), n < f → n < g → digitsRev f n = digitsRev g n := by
  intro f
  induction f with
  | zero => intro g n h; omega
  | succ f ih =>
    intro g n hf hg
    cases g with
    | zero => omega
    | succ g =>
      simp only [digitsRev]
      by_cases h10 : n < 10
      · simp [h10]
      · simp only [h10, if_false]
        rw [ih g (n / 10) (by omega) (by omega)]

theorem formatNat_small (n : Nat) (h : n < 10) : formatNat n = [48 + n] := by
  simp [formatNat, digitsRev, h, Nat.mod_eq_of_lt h]

theorem formatNat_step (n : Nat) (h : ¬ n < 10) :
    formatNat n = formatNat (n / 10) ++ [48 + n % 10] := by
  have h1 : digitsRev (n + 1) n = (48 + n % 10) :: digitsRev n (n / 10) := by
    rw [digitsRev]; simp [h]
  rw [formatNat, h1, List.reverse_cons, formatNat,
    digitsRev_fuel n (n / 10 + 1) (n / 10) (by omega) (by omega)]

theorem zeroPad_zero (w : Nat) : zeroPad w 0 = List.replicate w 48 := by
  induction w with
  | zero => rfl
  | succ w ih => simp [zeroPad, ih, List.replicate_succ']

theorem zeroPad_length (w x : Nat) : (zeroPad w x).length = w := by
  induction w generalizing x with
  | zero => rfl
  | succ w ih => simp [zeroPad, ih]

theorem formatNat_length_le : ∀ (w x : Nat), x < 10 ^ (w + 1) → (formatNat x).length ≤ w + 1 := by
  intro w
  induction w with
  | zero => intro x h; simp at h; simp [formatNat_small x h]
  | succ w ih =>
    intro x h
    by_cases h10 : x < 10
    · simp [formatNat_small x h10]
    · rw [formatNat_step x h10]
      have := ih (x / 10) (by rw [pow_succ] at h; omega)
      simp; omega

theorem appendInt_eq_zeroPad :
    ∀ (w x : Nat), x < 10 ^ (w + 1) → appendInt x (w + 1) = zeroPad (w + 1) x := by
  intro w
  induction w with
  | zero =>
    intro x h
    simp at h
    have hm : x % 10 = x := by omega
    simp [appendInt, formatNat_small x h, zeroPad, hm]
  | succ w ih =>
    intro x h
    by_cases h10 : x < 10
    · have hx : x / 10 = 0 := by omega
      have hm : x % 10 = x := by omega
      rw [zeroPad, hx, zeroPad_zero]
      simp [appendInt, formatNat_small x h10, hm]
    · have hlt : x / 10 < 10 ^ (w + 1) := by rw [pow_succ] at h; omega
      have hlen := formatNat_length_le w (x / 10) hlt
      have h2 := ih (x / 10) hlt
      rw [zeroPad, ← h2]
      simp only [appendInt, formatNat_step x h10, List.length_append, List.length_singleton]
      rw [← List.append_assoc]
      congr 3
      omega

/-! ## `FormatTimestamp` in closed form -/

theorem tdiv_negSucc (n : Nat) :
    (Int.negSucc n).tdiv 1000000000 = -(((n + 1) / 1000000000 : Nat) : Int) := rfl

theorem timeUnix_zero (d : Int) : timeUnix 0 d = (d / 1000000000, d % 1000000000) := by
  unfold timeUnix
  by_cases hneg : d < 0
  · obtain ⟨n, rfl⟩ : ∃ n : Nat, d = Int.negSucc n := by
      cases d with
      | ofNat n => exact absurd hneg (by simp)
      | negSucc n => exact ⟨n, rfl⟩
    rw [if_pos (Or.inl hneg), tdiv_negSucc]
    simp only [Int.negSucc_eq]
    by_cases h2 : -((n : Int) + 1) - -(((n + 1) / 1000000000 : Nat) : Int) * 1000000000 < 0
    · rw [if_pos h2]
      ext <;> simp <;> omega
    · rw [if_neg h2]
      ext <;> simp <;> omega
  · have h0 : 0 ≤ d := by omega
    by_cases h1 : d < 0 ∨ d ≥ 1000000000
    · rw [if_pos h1, Int.tdiv_eq_ediv h0 (by norm_num)]
      have h2 : ¬ (d - d / 1000000000 * 1000000000 < 0) := by omega
      simp only [h2, if_false]
      ext <;> first | (simp; done) | (simp; omega)
    · rw [if_neg h1]
      ext <;> simp <;> omega

theorem replaceByte_append (a b : Bytes) (x y : Nat) :
    replaceByte (a ++ b) x y = replaceByte a x y ++ replaceByte b x y := by
  simp [replaceByte]

theorem replaceByte_zeroPad (w x : Nat) : replaceByte (zeroPad w x) 46 44 = zeroPad w x := by
  induction w generalizing x with
  | zero => rfl
  | succ w ih =>
    rw [zeroPad, replaceByte_append, ih]
    have : ¬ (48 + x % 10 = 46) := by omega
    simp [replaceByte, this]

theorem take3_zeroPad9 (x : Nat) : (zeroPad 9 x).take 3 = zeroPad 3 (x / 1000000) := by
  simp only [zeroPad, List.nil_append, List.singleton_append, List.cons_append, List.take_succ_cons,
    List.take_zero]
  have e1 : x / 10 / 10 / 10 / 10 / 10 / 10 / 10 / 10 = x / 1000000 / 10 / 10 := by omega
  have e2 : x / 10 / 10 / 10 / 10 / 10 / 10 / 10 = x / 1000000 / 10 := by omega
  have e3 : x / 10 / 10 / 10 / 10 / 10 / 10 = x / 1000000 := by omega
  rw [e1, e2, e3]

/-- The function `FormatTimestamp` in closed form, for every duration: the fields are those of the time of
day of the instant `dur` nanoseconds after the epoch. -/
theorem formatTimestamp_eq (dur : Int) :
    FormatTimestamp dur =
      stampText ((dur / 1000000000 % 86400).toNat / 3600)
        ((dur / 1000000000 % 86400).toNat % 3600 / 60)
        ((dur / 1000000000 % 86400).toNat % 60)
        ((dur % 1000000000).toNat / 1000000) := by
  have hns0 : 0 ≤ dur % 1000000000 := Int.emod_nonneg _ (by norm_num)
  have hns1 : dur % 1000000000 < 1000000000 := Int.emod_lt_of_pos _ (by norm_num)
  have hs0 : 0 ≤ dur / 1000000000 % 86400 := Int.emod_nonneg _ (by norm_num)
  have hs1 : dur / 1000000000 % 86400 < 86400 := Int.emod_lt_of_pos _ (by norm_num)
  generalize hT : (dur / 1000000000 % 86400).toNat = tod at *
  generalize hN : (dur % 1000000000).toNat = ns at *
  have htod : tod < 86400 := by omega
  have hns : ns < 1000000000 := by omega
  unfold FormatTimestamp formatClock
  rw [timeUnix_zero]
  simp only [hT, hN]
  rw [appendInt_eq_zeroPad 1 (tod / 3600) (by norm_num; omega),
    appendInt_eq_zeroPad 1 _ (by norm_num; omega),
    appendInt_eq_zeroPad 1 _ (by norm_num; omega),
    appendInt_eq_zeroPad 8 ns (by norm_num; omega), take3_zeroPad9]
  have e1 : (tod - tod / 3600 * 3600) / 60 = tod % 3600 / 60 := by omega
  have e2 : tod - tod / 3600 * 3600 - (tod - tod / 3600 * 3600) / 60 * 60 = tod % 60 := by omega
  rw [e2, e1]
  simp only [stampText, replaceByte_append, replaceByte_zeroPad]
  simp [replaceByte]

/-! ## The regexp matcher on expressions of fixed width -/

theorem matchesPrefix_append (p q : List (Nat → Bool)) (s : Bytes) :
    matchesPrefix (p ++ q) s = (matchesPrefix p s && matchesPrefix q (s.drop p.length)) := by
  induction p generalizing s with
  | nil => simp [matchesPrefix]
  | cons a p ih =>
    cases s with
    | nil => simp [matchesPrefix]
    | cons b s => simp [matchesPrefix, ih, Bool.and_assoc]

theorem matchesPrefix_length (p : List (Nat → Bool)) (s : Bytes)
    (h : matchesPrefix p s = true) : p.length ≤ s.length := by
  induction p generalizing s with
  | nil => simp
  | cons a p ih =>
    cases s with
    | nil => simp [matchesPrefix] at h
    | cons b s =>
      simp only [matchesPrefix, Bool.and_eq_true] at h
      have := ih s h.2
      simp; omega

theorem Regex.run_fixed (r : Regex) (hf : r.fixed = true) :
    ∀ (s : Bytes) (caps : List Bytes) (k : Bytes → List Bytes → Option (List Bytes)),
      r.run s caps k =
        if matchesPrefix r.classes s = true then
          k (s.drop r.classes.length) (caps ++ r.captures s)
        else none := by
  induction r with
  | cls p =>
    intro s caps k
    cases s with
    | nil => simp [Regex.run, Regex.classes, matchesPrefix]
    | cons c s => simp [Regex.run, Regex.classes, Regex.captures, matchesPrefix]
  | empty => intro s caps k; simp [Regex.run, Regex.classes, Regex.captures, matchesPrefix]
  | cat r₁ r₂ ih₁ ih₂ =>
    intro s caps k
    simp only [Regex.fixed, Bool.and_eq_true] at hf
    simp only [Regex.run, Regex.classes, Regex.captures, ih₁ hf.1, ih₂ hf.2,
      matchesPrefix_append, Bool.and_eq_true, List.drop_drop, List.length_append,
      List.append_assoc]
    by_cases h1 : matchesPrefix r₁.classes s = true
    · by_cases h2 : matchesPrefix r₂.classes (List.drop r₁.classes.length s) = true
      · simp [h1, h2, Nat.add_comm]
      · simp [h1, h2]
    · simp [h1]
  | star p => simp [Regex.fixed] at hf
  | group r ih =>
    intro s caps k
    simp only [Regex.fixed] at hf
    simp only [Regex.run, Regex.classes, Regex.captures, ih hf]
    by_cases h1 : matchesPrefix r.classes s = true
    · have := matchesPrefix_length _ _ h1
      have e : s.length - (s.length - r.classes.length) = r.classes.length := by omega
      simp [h1, e]
    · simp [h1]
  | eot => simp [Regex.fixed] at hf

theorem Regex.run_seq_append (xs ys : List Regex) (s : Bytes) (caps : List Bytes)
    (k : Bytes → List Bytes → Option (List Bytes)) :
    (Regex.seq (xs ++ ys)).run s caps k =
      (Regex.seq xs).run s caps (fun s' caps' => (Regex.seq ys).run s' caps' k) := by
  induction xs generalizing s caps k with
  | nil => simp [Regex.seq, Regex.run]
  | cons x xs ih => simp [Regex.seq, Regex.run, ih]

/-! ## The tail `\s*(.*)$` of the regexp -/

theorem starK_isDot {α : Type} (K : Bytes → Option α) (hK : ∀ t, t ≠ [] → K t = none) :
    ∀ s : Bytes, Regex.starK isDot K s = if s.all isDot = true then K [] else none := by
  intro s
  induction s with
  | nil => simp [Regex.starK]
  | cons c s ih =>
    by_cases hc : isDot c = true
    · simp only [Regex.starK, hc, if_true, ih, hK (c :: s) (by simp), List.all_cons, Bool.true_and]
      by_cases hs : s.all isDot = true
      · simp only [hs, if_true]; cases K [] <;> rfl
      · simp [hs]
    · simp [Regex.starK, hc, hK (c :: s) (by simp)]

theorem all_dropWhile (p q : Nat → Bool) (l : Bytes) (h : l.all p = true) :
    (l.dropWhile q).all p = true := by
  induction l with
  | nil => simp
  | cons a l ih =>
    simp only [List.all_cons, Bool.and_eq_true] at h
    by_cases hq : q a = true
    · simp only [List.dropWhile_cons, hq, if_true]; exact ih h.2
    · simp only [List.dropWhile_cons, hq]; simp [h.1, h.2]

theorem starK_isSpace {α : Type} (g : Bytes → α) :
    ∀ s : Bytes,
      Regex.starK isSpace (fun t => if t.all isDot = true then some (g t) else none) s =
        if (s.dropWhile isSpace).all isDot = true then some (g (s.dropWhile isSpace)) else none := by
  intro s
  induction s with
  | nil => simp [Regex.starK]
  | cons c s ih =>
    by_cases hc : isSpace c = true
    · simp only [Regex.starK, hc, if_true, ih, List.dropWhile_cons]
      by_cases hs : (s.dropWhile isSpace).all isDot = true
      · simp [hs]
      · have : ¬ ((c :: s).all isDot = true) := by
          intro hall
          simp only [List.all_cons, Bool.and_eq_true] at hall
          exact hs (all_dropWhile _ _ _ hall.2)
        simp only [hs, this]; simp
    · simp [Regex.starK, hc, List.dropWhile_cons]

theorem run_tail (s : Bytes) (caps : List Bytes) (g : Bytes → List Bytes → List Bytes) :
    (Regex.seq tailRegexes).run s caps (fun s' caps' => some (g s' caps')) =
      if (s.dropWhile isSpace).all isDot = true then some (g [] (caps ++ [s.dropWhile isSpace]))
      else none := by
  have inner : ∀ t : Bytes,
      Regex.starK isDot
        (fun s'' => if s''.length = 0 then
            some (g s'' (caps ++ [t.take (t.length - s''.length)]))
          else none) t =
      if t.all isDot = true then some (g [] (caps ++ [t])) else none := by
    intro t
    rw [starK_isDot _ (by intro u hu; cases u with
      | nil => exact absurd rfl hu
      | cons a u => simp)]
    simp
  simp only [tailRegexes, Regex.seq, Regex.run, inner]
  exact starK_isSpace (fun t => g [] (caps ++ [t])) s

/-! ## `TIMESTAMP_REGEXP` in closed form -/

theorem regexp_split : TIMESTAMP_REGEXP = Regex.seq (coreRegexes ++ tailRegexes) := rfl

theorem core_fixed : (Regex.seq coreRegexes).fixed = true := rfl

theorem core_classes : (Regex.seq coreRegexes).classes = timingPattern := rfl

theorem core_captures (s : Bytes) : (Regex.seq coreRegexes).captures s = digitGroups s := by
  simp [coreRegexes, stampRegex, Regex.seq, Regex.rep, Regex.captures, Regex.classes,
    digitGroups, List.drop_drop]

/-- The regexp anchored at the head of `s` matches exactly when `s` starts with 29 bytes of the
shape `timingPattern` and no LF follows the blanks after them; the match is all of `s`, and the
last submatch is what follows those blanks. -/
theorem matchAt_eq (s : Bytes) :
    TIMESTAMP_REGEXP.matchAt s =
      if matchesPrefix timingPattern s = true ∧
          ((s.drop 29).dropWhile isSpace).all isDot = true then
        some (s :: (digitGroups s ++ [(s.drop 29).dropWhile isSpace]))
      else none := by
  unfold Regex.matchAt
  rw [regexp_split, Regex.run_seq_append, Regex.run_fixed _ core_fixed, core_classes,
    core_captures]
  by_cases h1 : matchesPrefix timingPattern s = true
  · simp only [h1, if_true, true_and]
    rw [run_tail (List.drop timingPattern.length s) ([] ++ digitGroups s)
      (fun s' caps' => s.take (s.length - s'.length) :: caps')]
    simp [timingPattern, stampPattern]
  · simp [h1]

/-! ## `Atoi` on strings of digits -/

theorem decimalValue_snoc (ds : Bytes) (d : Nat) :
    decimalValue (ds ++ [d]) = decimalValue ds * 10 + (d - 48) := by
  simp [decimalValue, List.foldl_append]

theorem decimalValue_lt (ds : Bytes) (h : ds.all isDigit = true) :
    decimalValue ds < 10 ^ ds.length := by
  induction ds using List.reverseRecOn with
  | nil => simp [decimalValue]
  | append_singleton ds d ih =>
    simp only [List.all_append, Bool.and_eq_true, List.all_cons, List.all_nil, Bool.and_true] at h
    have h1 := ih h.1
    have h2 : d - 48 < 10 := by
      have := h.2
      simp only [isDigit, Bool.and_eq_true, decide_eq_true_eq] at this
      omega
    rw [decimalValue_snoc, List.length_append, List.length_singleton, pow_succ]
    omega

theorem wrap64_of_range (x : Int) (h0 : -(2 ^ 63 : Int) ≤ x) (h1 : x < 2 ^ 63) : wrap64 x = x := by
  unfold wrap64
  norm_num at h0 h1 ⊢
  omega

theorem Atoi_digits (ds : Bytes) (hall : ds.all isDigit = true) (hpos : 0 < ds.length)
    (hlen : ds.length ≤ 18) : Atoi ds = some (decimalValue ds : Int) := by
  have hlt := decimalValue_lt ds hall
  have hle : 10 ^ ds.length ≤ 10 ^ 18 := Nat.pow_le_pow_right (by norm_num) hlen
  have hv : decimalValue ds < 1000000000000000000 := by
    have : (10 : Nat) ^ 18 = 1000000000000000000 := by norm_num
    omega
  unfold Atoi
  split
  · rename_i rest
    simp [isDigit] at hall
  · rename_i rest
    simp [isDigit] at hall
  · have hne : ¬ ds.length = 0 := by omega
    simp only [hne, if_false, hall]
    norm_num
    omega

/-! ## `FindStringSubmatch` and `ParseTimestamp` in closed form -/

theorem firstSuffix_some (p : Bytes → Bool) (s t : Bytes) (h : firstSuffix p s = some t) :
    p t = true := by
  induction s with
  | nil =>
    by_cases hp : p [] = true
    · simp only [firstSuffix, hp, if_true, Option.some.injEq] at h; rw [← h]; exact hp
    · simp [firstSuffix, hp] at h
  | cons b s ih =>
    by_cases hp : p (b :: s) = true
    · simp only [firstSuffix, hp, if_true, Option.some.injEq] at h; rw [← h]; exact hp
    · simp only [firstSuffix, hp] at h; exact ih h

theorem matchAt_accepts (s : Bytes) :
    TIMESTAMP_REGEXP.matchAt s =
      if accepts s = true then some (s :: (digitGroups s ++ [(s.drop 29).dropWhile isSpace]))
      else none := by
  rw [matchAt_eq]; simp [accepts]

theorem findStringSubmatch_eq (input : Bytes) :
    TIMESTAMP_REGEXP.FindStringSubmatch input =
      match firstSuffix accepts input with
      | some suf => suf :: (digitGroups suf ++ [(suf.drop 29).dropWhile isSpace])
      | none => [] := by
  induction input with
  | nil =>
    simp only [Regex.FindStringSubmatch, firstSuffix, matchAt_accepts]
    by_cases h : accepts [] = true <;> simp [h]
  | cons b s ih =>
    simp only [Regex.FindStringSubmatch, firstSuffix, matchAt_accepts]
    by_cases h : accepts (b :: s) = true
    · simp [h]
    · simp only [h]; exact ih

theorem matchesPrefix_replicate (p : Nat → Bool) (n : Nat) (q : List (Nat → Bool)) (t : Bytes)
    (h : matchesPrefix (List.replicate n p ++ q) t = true) :
    (t.take n).all p = true ∧ (t.take n).length = n := by
  induction n generalizing t with
  | zero => simp
  | succ n ih =>
    cases t with
    | nil => simp [List.replicate_succ, matchesPrefix] at h
    | cons b t =>
      simp only [List.replicate_succ, List.cons_append, matchesPrefix, Bool.and_eq_true] at h
      have := ih t h.2
      simp [h.1, this.1, this.2]

theorem digits_at (k n : Nat) (s : Bytes) (h : matchesPrefix timingPattern s = true)
    (hk : timingPattern = timingPattern.take k ++ (List.replicate n isDigit ++
      timingPattern.drop (k + n))) (hlen : (timingPattern.take k).length = k) :
    ((s.drop k).take n).all isDigit = true ∧ ((s.drop k).take n).length = n := by
  rw [hk, matchesPrefix_append, Bool.and_eq_true, hlen] at h
  exact matchesPrefix_replicate _ _ _ _ h.2

theorem timestamp_groups (t : Bytes)
    (h1 : (t.take 2).all isDigit = true ∧ (t.take 2).length = 2)
    (h2 : ((t.drop 3).take 2).all isDigit = true ∧ ((t.drop 3).take 2).length = 2)
    (h3 : ((t.drop 6).take 2).all isDigit = true ∧ ((t.drop 6).take 2).length = 2)
    (h4 : ((t.drop 9).take 3).all isDigit = true ∧ ((t.drop 9).take 3).length = 3) :
    Timestamp (t.take 2) ((t.drop 3).take 2) ((t.drop 6).take 2) ((t.drop 9).take 3) =
      .ok (stampNanos t) := by
  have b1 := decimalValue_lt _ h1.1
  have b2 := decimalValue_lt _ h2.1
  have b3 := decimalValue_lt _ h3.1
  have b4 := decimalValue_lt _ h4.1
  rw [h1.2] at b1
  rw [h2.2] at b2
  rw [h3.2] at b3
  rw [h4.2] at b4
  unfold Timestamp
  rw [Atoi_digits _ h1.1 (by omega) (by omega), Atoi_digits _ h2.1 (by omega) (by omega),
    Atoi_digits _ h3.1 (by omega) (by omega), Atoi_digits _ h4.1 (by omega) (by omega)]
  simp only [stampNanos]
  rw [wrap64_of_range]
  · simp only [Hour, Minute, Second, Millisecond]; norm_num; omega
  · simp only [Hour, Minute, Second, Millisecond]; norm_num; omega

/-- The function `ParseTimestamp` in closed form: the leftmost place where the regexp matches decides the
result, and the conversions of the digit groups do not fail. -/
theorem parseTimestamp_eq (input : Bytes) :
    ParseTimestamp input =
      match firstSuffix accepts input with
      | some suf => .ok (stampNanos suf) (stampNanos (suf.drop 17)) (posInfoOf (suf.drop 29))
      | none => .error .header := by
  unfold ParseTimestamp
  rw [findStringSubmatch_eq]
  cases hfs : firstSuffix accepts input with
  | none => simp
  | some suf =>
    have hacc := firstSuffix_some _ _ _ hfs
    simp only [accepts, Bool.and_eq_true] at hacc
    have hm := hacc.1
    have g1 := digits_at 0 2 suf hm rfl rfl
    have g2 := digits_at 3 2 suf hm rfl rfl
    have g3 := digits_at 6 2 suf hm rfl rfl
    have g4 := digits_at 9 3 suf hm rfl rfl
    have g5 := digits_at 17 2 suf hm rfl rfl
    have g6 := digits_at 20 2 suf hm rfl rfl
    have g7 := digits_at 23 2 suf hm rfl rfl
    have g8 := digits_at 26 3 suf hm rfl rfl
    have t1 := timestamp_groups suf (by simpa using g1) g2 g3 g4
    have t2 := timestamp_groups (suf.drop 17) (by simpa using g5)
      (by simpa [List.drop_drop] using g6) (by simpa [List.drop_drop] using g7)
      (by simpa [List.drop_drop] using g8)
    simp only [List.drop_drop] at t2
    norm_num at t2
    simp [digitGroups, t1, t2, posInfoOf]

/-! ## Timing lines in canonical form -/

theorem str_arrow : str " --> " = [32, 45, 45, 62, 32] := by decide

theorem isDigit_digit (x : Nat) : isDigit (48 + x % 10) = true := by
  simp only [isDigit, Bool.and_eq_true, decide_eq_true_eq]; omega

theorem stampText_cons (h m s ms : Nat) (rest : Bytes) :
    stampText h m s ms ++ rest =
      (48 + h / 10 % 10) :: (48 + h % 10) :: 58 :: (48 + m / 10 % 10) :: (48 + m % 10) :: 58 ::
        (48 + s / 10 % 10) :: (48 + s % 10) :: 44 :: (48 + ms / 10 / 10 % 10) ::
        (48 + ms / 10 % 10) :: (48 + ms % 10) :: rest := by
  simp [stampText, zeroPad]

theorem stampNanos_stampText (h m s ms : Nat) (rest : Bytes) (hh : h < 100) (hm : m < 100)
    (hs : s < 100) (hms : ms < 1000) :
    stampNanos (stampText h m s ms ++ rest) =
      ((((h * 60 + m) * 60 + s) * 1000 + ms : Nat) : Int) * Millisecond := by
  rw [stampText_cons]
  simp only [stampNanos, List.take, List.drop, decimalValue, List.foldl, Hour, Minute, Second,
    Millisecond]
  push_cast
  omega

theorem accepts_canonical (h m s ms h' m' s' ms' : Nat) (rest : Bytes)
    (hrest : (rest.dropWhile isSpace).all isDot = true) :
    accepts (stampText h m s ms ++ (str " --> " ++ (stampText h' m' s' ms' ++ rest))) = true := by
  rw [stampText_cons, str_arrow, stampText_cons]
  simp only [accepts, timingPattern, stampPattern, List.cons_append, List.nil_append,
    matchesPrefix, isDigit_digit, List.drop, hrest]
  decide

/-- A timing line that starts with two timestamps around ` --> ` is parsed at its head. -/
theorem parseTimestamp_canonical (h m s ms h' m' s' ms' : Nat) (rest : Bytes)
    (hh : h < 100) (hm : m < 100) (hs : s < 100) (hms : ms < 1000)
    (hh' : h' < 100) (hm' : m' < 100) (hs' : s' < 100) (hms' : ms' < 1000)
    (hrest : (rest.dropWhile isSpace).all isDot = true) :
    ParseTimestamp (stampText h m s ms ++ (str " --> " ++ (stampText h' m' s' ms' ++ rest))) =
      .ok (((((h * 60 + m) * 60 + s) * 1000 + ms : Nat) : Int) * Millisecond)
        (((((h' * 60 + m') * 60 + s') * 1000 + ms' : Nat) : Int) * Millisecond)
        (posInfoOf rest) := by
  have hacc := accepts_canonical h m s ms h' m' s' ms' rest hrest
  have hfs : firstSuffix accepts
      (stampText h m s ms ++ (str " --> " ++ (stampText h' m' s' ms' ++ rest))) =
      some (stampText h m s ms ++ (str " --> " ++ (stampText h' m' s' ms' ++ rest))) := by
    rw [stampText_cons] at hacc ⊢
    simp only [firstSuffix, hacc, if_true]
  rw [parseTimestamp_eq, hfs]
  simp only
  rw [stampNanos_stampText h m s ms _ hh hm hs hms]
  have e17 : List.drop 17 (stampText h m s ms ++ (str " --> " ++ (stampText h' m' s' ms' ++ rest)))
      = stampText h' m' s' ms' ++ rest := by
    rw [stampText_cons, str_arrow]; rfl
  have e29 : List.drop 29 (stampText h m s ms ++ (str " --> " ++ (stampText h' m' s' ms' ++ rest)))
      = rest := by
    rw [stampText_cons, str_arrow, stampText_cons]; rfl
  rw [e17, e29, stampNanos_stampText h' m' s' ms' _ hh' hm' hs' hms']

/-- The function `FormatTimestamp` gives back the fields of a duration below 24 hours. -/
theorem formatTimestamp_fields (h m s ms : Nat) (hh : h < 24) (hm : m < 60) (hs : s < 60)
    (hms : ms < 1000) :
    FormatTimestamp (((((h * 60 + m) * 60 + s) * 1000 + ms : Nat) : Int) * Millisecond) =
      stampText h m s ms := by
  rw [formatTimestamp_eq]
  simp only [Millisecond]
  have e1 : ((((((h * 60 + m) * 60 + s) * 1000 + ms : Nat) : Int) * 1000000) / 1000000000
      % 86400).toNat = (h * 60 + m) * 60 + s := by
    push_cast; omega
  have e2 : ((((((h * 60 + m) * 60 + s) * 1000 + ms : Nat) : Int) * 1000000)
      % 1000000000).toNat = ms * 1000000 := by
    push_cast; omega
  rw [e1, e2]
  congr 1 <;> omega

/-! ## The fuel of the loops of `ReadBlock` is never used up -/

/-- With more fuel than the scanner has outcomes pending, the result of the first loop does not
depend on the fuel. -/
theorem skipEmpty_fuel (pending : List (Option Bytes)) :
    ∀ (token : Bytes) (err : Bool) (fuel₁ fuel₂ : Nat),
      pending.length + 1 ≤ fuel₁ → pending.length + 1 ≤ fuel₂ →
      ReadBlock.skipEmpty fuel₁ { token := token, err := err, pending := pending } =
        ReadBlock.skipEmpty fuel₂ { token := token, err := err, pending := pending } := by
  induction pending with
  | nil =>
    intro token err fuel₁ fuel₂ h₁ h₂
    obtain ⟨f₁, rfl⟩ : ∃ f, fuel₁ = f + 1 := ⟨fuel₁ - 1, by omega⟩
    obtain ⟨f₂, rfl⟩ : ∃ f, fuel₂ = f + 1 := ⟨fuel₂ - 1, by omega⟩
    cases err <;> simp [ReadBlock.skipEmpty, Scanner.Scan]
  | cons outcome rest ih =>
    intro token err fuel₁ fuel₂ h₁ h₂
    obtain ⟨f₁, rfl⟩ : ∃ f, fuel₁ = f + 1 := ⟨fuel₁ - 1, by omega⟩
    obtain ⟨f₂, rfl⟩ : ∃ f, fuel₂ = f + 1 := ⟨fuel₂ - 1, by omega⟩
    simp only [List.length_cons] at h₁ h₂
    cases outcome with
    | none => simp [ReadBlock.skipEmpty, Scanner.Scan]
    | some line =>
      have := ih line err f₁ f₂ (by omega) (by omega)
      simp [ReadBlock.skipEmpty, Scanner.Scan, this]

/-- With more fuel than the scanner has outcomes pending, the result of the second loop does not
depend on the fuel. -/
theorem readText_fuel (pending : List (Option Bytes)) :
    ∀ (token : Bytes) (err : Bool) (text : List Bytes) (fuel₁ fuel₂ : Nat),
      pending.length + 1 ≤ fuel₁ → pending.length + 1 ≤ fuel₂ →
      ReadBlock.readText fuel₁ { token := token, err := err, pending := pending } text =
        ReadBlock.readText fuel₂ { token := token, err := err, pending := pending } text := by
  induction pending with
  | nil =>
    intro token err text fuel₁ fuel₂ h₁ h₂
    obtain ⟨f₁, rfl⟩ : ∃ f, fuel₁ = f + 1 := ⟨fuel₁ - 1, by omega⟩
    obtain ⟨f₂, rfl⟩ : ∃ f, fuel₂ = f + 1 := ⟨fuel₂ - 1, by omega⟩
    cases err <;> simp [ReadBlock.readText, Scanner.Scan]
  | cons outcome rest ih =>
    intro token err text fuel₁ fuel₂ h₁ h₂
    obtain ⟨f₁, rfl⟩ : ∃ f, fuel₁ = f + 1 := ⟨fuel₁ - 1, by omega⟩
    obtain ⟨f₂, rfl⟩ : ∃ f, fuel₂ = f + 1 := ⟨fuel₂ - 1, by omega⟩
    simp only [List.length_cons] at h₁ h₂
    cases outcome with
    | none => simp [ReadBlock.readText, Scanner.Scan]
    | some line =>
      have := ih line err (text ++ [line]) f₁ f₂ (by omega) (by omega)
      simp [ReadBlock.readText, Scanner.Scan, this]

/-! ## The two loops of `ReadBlock` -/

theorem skipEmpty_found (n : Nat) (indexStr : Bytes) (rest : List (Option Bytes))
    (hne : indexStr ≠ []) :
    ∀ (fuel : Nat) (err : Bool), n + 2 ≤ fuel →
      ReadBlock.skipEmpty fuel
          { token := [], err := err,
            pending := List.replicate n (some []) ++ some indexStr :: rest } =
        (none, { token := indexStr, err := err, pending := rest }) := by
  induction n with
  | zero =>
    intro fuel err hfuel
    obtain ⟨f, rfl⟩ : ∃ f, fuel = f + 2 := ⟨fuel - 2, by omega⟩
    have hlen : indexStr.length ≠ 0 := by
      intro h; exact hne (List.length_eq_zero.mp h)
    simp [ReadBlock.skipEmpty, Scanner.Scan, hlen]
  | succ n ih =>
    intro fuel err hfuel
    obtain ⟨f, rfl⟩ : ∃ f, fuel = f + 1 := ⟨fuel - 1, by omega⟩
    have := ih f err (by omega)
    simp [ReadBlock.skipEmpty, Scanner.Scan, List.replicate_succ, this]

theorem skipEmpty_eof (n : Nat) :
    ∀ (fuel : Nat), n + 1 ≤ fuel →
      ReadBlock.skipEmpty fuel
          { token := [], err := false, pending := List.replicate n (some []) } =
        (some .eof, { token := [], err := false, pending := [] }) := by
  induction n with
  | zero =>
    intro fuel hfuel
    obtain ⟨f, rfl⟩ : ∃ f, fuel = f + 1 := ⟨fuel - 1, by omega⟩
    simp [ReadBlock.skipEmpty, Scanner.Scan]
  | succ n ih =>
    intro fuel hfuel
    obtain ⟨f, rfl⟩ : ∃ f, fuel = f + 1 := ⟨fuel - 1, by omega⟩
    have := ih f (by omega)
    simp [ReadBlock.skipEmpty, Scanner.Scan, List.replicate_succ, this]

theorem readText_lines (text : List Bytes) (tail : List (Option Bytes))
    (htail : tail = [] ∨ ∃ more, tail = some [] :: more) :
    (∀ line ∈ text, line ≠ []) →
    ∀ (fuel : Nat) (token : Bytes) (acc : List Bytes), text.length + 1 ≤ fuel →
      ReadBlock.readText fuel
          { token := token, err := false, pending := text.map some ++ tail } acc =
        (some (acc ++ text), { token := [], err := false, pending := tail.tail }) := by
  induction text with
  | nil =>
    intro _ fuel token acc hfuel
    obtain ⟨f, rfl⟩ : ∃ f, fuel = f + 1 := ⟨fuel - 1, by omega⟩
    rcases htail with rfl | ⟨more, rfl⟩
    · simp [ReadBlock.readText, Scanner.Scan]
    · simp [ReadBlock.readText, Scanner.Scan]
  | cons line text ih =>
    intro hne fuel token acc hfuel
    obtain ⟨f, rfl⟩ : ∃ f, fuel = f + 1 := ⟨fuel - 1, by omega⟩
    have hline : line ≠ [] := hne line (by simp)
    have hlen : line.length ≠ 0 := by
      intro h; exact hline (List.length_eq_zero.mp h)
    have := ih (fun l hl => hne l (by simp [hl])) f line (acc ++ [line])
      (by simp at hfuel; omega)
    simp [ReadBlock.readText, Scanner.Scan, hlen, this]

theorem atoi_ne_nil (s : Bytes) (i : Int) (h : Atoi s = some i) : s ≠ [] := by
  intro hs; subst hs; simp [Atoi] at h

/-- The result of `ReadBlock` on a scanner that stands before a block. -/
theorem readBlock_block (n : Nat) (indexStr timing : Bytes) (text : List Bytes)
    (tail : List (Option Bytes)) (index start stop : Int) (posInfo : Option Bytes)
    (hindex : Atoi indexStr = some index)
    (htiming : ParseTimestamp timing = .ok start stop posInfo)
    (htext : ∀ line ∈ text, line ≠ [])
    (htail : tail = [] ∨ ∃ more, tail = some [] :: more) :
    ReadBlock { token := [], err := false,
                pending := List.replicate n (some []) ++
                  some indexStr :: some timing :: (text.map some ++ tail) } =
      (.block { Index := index, From := start, To := stop, PosInfo := posInfo, Text := text },
        { token := [], err := false, pending := tail.tail }) := by
  unfold ReadBlock
  rw [skipEmpty_found n indexStr _ (atoi_ne_nil _ _ hindex) _ false (by simp)]
  simp only [hindex, Scanner.Scan, htiming, Bool.not_true]
  rw [readText_lines text tail htail htext _ _ [] (by simp)]
  simp

/-! ## `Atoi` undoes `%d` -/

theorem atoi_digits_value (ds : Bytes) (hall : ds.all isDigit = true) (hpos : ds ≠ [])
    (hv : (decimalValue ds : Int) < 2 ^ 63) : Atoi ds = some (decimalValue ds : Int) := by
  unfold Atoi
  split
  · simp [isDigit] at hall
  · simp [isDigit] at hall
  · have hne : ¬ ds.length = 0 := by
      intro h; exact hpos (List.length_eq_zero.mp h)
    simp only [hne, if_false, hall]
    norm_num at hv ⊢
    omega

theorem atoi_minus_digits (ds : Bytes) (hall : ds.all isDigit = true) (hpos : ds ≠ [])
    (hv : (decimalValue ds : Int) ≤ 2 ^ 63) : Atoi (45 :: ds) = some (-(decimalValue ds : Int)) := by
  have hne : ¬ ds.length = 0 := by
    intro h; exact hpos (List.length_eq_zero.mp h)
  simp only [Atoi, hne, if_false, hall]
  norm_num at hv ⊢
  omega

theorem formatNat_spec (n : Nat) :
    (formatNat n).all isDigit = true ∧ formatNat n ≠ [] ∧ decimalValue (formatNat n) = n := by
  induction n using Nat.strong_induction_on with
  | _ n ih =>
    by_cases h10 : n < 10
    · rw [formatNat_small n h10]
      refine ⟨?_, by simp, ?_⟩
      · simp [isDigit]; omega
      · simp [decimalValue]
    · rw [formatNat_step n h10]
      obtain ⟨h1, _, h3⟩ := ih (n / 10) (by omega)
      refine ⟨?_, by simp, ?_⟩
      · simp [h1, isDigit_digit]
      · rw [decimalValue_snoc, h3]; omega

theorem atoi_formatInt (i : Int) (h0 : -(2 ^ 63 : Int) ≤ i) (h1 : i < 2 ^ 63) :
    Atoi (formatInt i) = some i := by
  unfold formatInt
  by_cases hneg : i < 0
  · obtain ⟨h1', h2', h3'⟩ := formatNat_spec (-i).toNat
    rw [if_pos hneg, atoi_minus_digits _ h1' h2' (by rw [h3']; norm_num at h0 ⊢; omega), h3']
    congr 1; omega
  · obtain ⟨h1', h2', h3'⟩ := formatNat_spec i.toNat
    rw [if_neg hneg, atoi_digits_value _ h1' h2' (by rw [h3']; norm_num at h1 ⊢; omega), h3']
    congr 1; omega

theorem formatInt_no_lf (i : Int) : ∀ b ∈ formatInt i, b ≠ 10 := by
  have key : ∀ n : Nat, ∀ b ∈ formatNat n, b ≠ 10 := by
    intro n b hb
    have := (formatNat_spec n).1
    rw [List.all_eq_true] at this
    have hd := this b hb
    simp only [isDigit, Bool.and_eq_true, decide_eq_true_eq] at hd
    omega
  unfold formatInt
  intro b hb
  split_ifs at hb
  · rcases List.mem_cons.mp hb with rfl | hb
    · decide
    · exact key _ b hb
  · exact key _ b hb

/-! ## `ScanLines` on lines that end in CR LF -/

theorem dropCR_snoc (line : Bytes) : dropCR (line ++ [13]) = line := by
  simp [dropCR]

theorem scanLines_line (l rest : Bytes) (hlf : ∀ b ∈ l, b ≠ 10) :
    ∀ cur : Bytes, cur.length + l.length < maxScanTokenSize →
      scanLines cur (l ++ 10 :: rest) = some (dropCR (cur ++ l)) :: scanLines [] rest := by
  induction l with
  | nil => intro cur _; simp [scanLines]
  | cons b l ih =>
    intro cur hlen
    have hb : b ≠ 10 := hlf b (by simp)
    have hlt : ¬ (cur.length + 1 ≥ maxScanTokenSize) := by simp at hlen; omega
    have := ih (fun x hx => hlf x (by simp [hx])) (cur ++ [b]) (by simp at hlen ⊢; omega)
    have e : cur ++ [b] ++ l = cur ++ b :: l := by simp
    rw [e] at this
    rw [List.cons_append, scanLines, if_neg hb, if_neg hlt, this]

theorem scanLines_crlf (lines : List Bytes)
    (hlf : ∀ line ∈ lines, ∀ b ∈ line, b ≠ 10)
    (hlen : ∀ line ∈ lines, line.length + 1 < maxScanTokenSize) :
    scanLines [] (lines.map (fun line => line ++ crlf)).flatten = lines.map some := by
  induction lines with
  | nil => simp [scanLines]
  | cons line lines ih =>
    have e : (List.map (fun line => line ++ crlf) (line :: lines)).flatten =
        (line ++ [13]) ++ 10 :: (lines.map (fun line => line ++ crlf)).flatten := by
      simp [crlf]
    rw [e, scanLines_line (line ++ [13]) _ (by
        intro b hb
        rcases List.mem_append.mp hb with hb | hb
        · exact hlf line (by simp) b hb
        · simp at hb; omega) [] (by
        have := hlen line (by simp)
        simp; omega)]
    rw [ih (fun l hl => hlf l (by simp [hl])) (fun l hl => hlen l (by simp [hl]))]
    simp [dropCR_snoc]

/-! ## `WriteBlock` on a writer that accepts every write -/

theorem write_accepting (wr : Writer) (p : Bytes) (h : ∀ e ∈ wr.script, e = none) :
    (wr.Write p).1 = false ∧ (wr.Write p).2.out = wr.out ++ p ∧
      ∀ e ∈ (wr.Write p).2.script, e = none := by
  obtain ⟨out, script⟩ := wr
  cases script with
  | nil => simp [Writer.Write]
  | cons e rest =>
    have he : e = none := h e (by simp)
    subst he
    refine ⟨by simp [Writer.Write], by simp [Writer.Write], ?_⟩
    intro e he
    exact h e (by simp [Writer.Write] at he; simp [he])

theorem writeText_accepting (text : List Bytes) :
    ∀ wr : Writer, (∀ e ∈ wr.script, e = none) →
      (WriteBlock.writeText text wr).1 = none ∧
        (WriteBlock.writeText text wr).2.out =
          wr.out ++ (text.map (fun line => line ++ crlf)).flatten := by
  induction text with
  | nil => intro wr _; simp [WriteBlock.writeText]
  | cons line text ih =>
    intro wr h
    obtain ⟨h1, h2, h3⟩ := write_accepting wr (line ++ crlf) h
    have := ih (wr.Write (line ++ crlf)).2 h3
    simp only [WriteBlock.writeText, h1]
    simp [this.1, this.2, h2]

theorem writeBlock_accepting (b : Block) (wr : Writer) (h : ∀ e ∈ wr.script, e = none) :
    (b.WriteBlock wr).1 = none ∧
      (b.WriteBlock wr).2.out =
        wr.out ++ blockText (formatInt b.Index)
          (FormatTimestamp b.From ++ str " --> " ++ FormatTimestamp b.To ++ posText b.PosInfo)
          b.Text := by
  obtain ⟨a1, a2, a3⟩ := write_accepting wr (formatInt b.Index ++ crlf) h
  obtain ⟨b1, b2, b3⟩ := write_accepting (wr.Write (formatInt b.Index ++ crlf)).2
    (FormatTimestamp b.From ++ str " --> " ++ FormatTimestamp b.To) a3
  unfold Block.WriteBlock
  simp only [a1, b1]
  cases hp : b.PosInfo with
  | none =>
    obtain ⟨c1, c2, c3⟩ := write_accepting ((wr.Write (formatInt b.Index ++ crlf)).2.Write
      (FormatTimestamp b.From ++ str " --> " ++ FormatTimestamp b.To)).2 crlf b3
    have := writeText_accepting b.Text _ c3
    simp only [Bool.false_eq_true, if_false]
    refine ⟨this.1, ?_⟩
    rw [this.2, c2, b2, a2]
    simp [blockText, posText]
  | some posInfo =>
    obtain ⟨c1, c2, c3⟩ := write_accepting ((wr.Write (formatInt b.Index ++ crlf)).2.Write
      (FormatTimestamp b.From ++ str " --> " ++ FormatTimestamp b.To)).2
      (str " " ++ posInfo ++ crlf) b3
    have := writeText_accepting b.Text _ c3
    simp only [Bool.false_eq_true, if_false]
    refine ⟨this.1, ?_⟩
    rw [this.2, c2, b2, a2]
    simp [blockText, posText]

/-! ## The serializer (C3) -/

/-- C3: on a writer that accepts every write, `WriteBlock` returns no error and appends exactly
the decimal index, CR LF, the two formatted timestamps around ` --> `, one space and the position
text when `PosInfo` is present, CR LF, and every text line followed by CR LF; nothing follows
the last text line. -/
theorem writeBlock_output (b : Block) (wr : Writer) (h : ∀ e ∈ wr.script, e = none) :
    (b.WriteBlock wr).1 = none ∧
      (b.WriteBlock wr).2.out =
        wr.out ++
          (formatInt b.Index ++ crlf ++
            (FormatTimestamp b.From ++ str " --> " ++ FormatTimestamp b.To ++
              (match b.PosInfo with
                | some posInfo => str " " ++ posInfo
                | none => []) ++ crlf) ++
            (b.Text.map (fun line => line ++ crlf)).flatten) := by
  obtain ⟨h1, h2⟩ := writeBlock_accepting b wr h
  refine ⟨h1, ?_⟩
  rw [h2]
  cases b.PosInfo <;> simp [blockText, posText]

/-- Witness of C3: the block of `TestWriteBlock` written to an empty buffer gives `BLOCK_1`
followed by one CR LF. -/
theorem writeBlock_output_witness :
    (block1.WriteBlock emptyBuffer).1 = none ∧
      (block1.WriteBlock emptyBuffer).2.out = BLOCK_1 ++ crlf := by
  have h := writeBlock_output block1 emptyBuffer (by simp [emptyBuffer])
  refine ⟨h.1, ?_⟩
  rw [h.2]
  decide

/-! ## The timestamp codec (C4 to C8) -/

/-- C4: a line `HH:MM:SS,mmm --> HH:MM:SS,mmm` with any digits in its fields is accepted, each
duration is `((HH*60 + MM)*60 + SS)*1000 + mmm` milliseconds of its own timestamp, without a
check of the ranges of the fields, and there is no position info. -/
theorem parseTimestamp_value (h m s ms h' m' s' ms' : Nat)
    (hh : h < 100) (hm : m < 100) (hs : s < 100) (hms : ms < 1000)
    (hh' : h' < 100) (hm' : m' < 100) (hs' : s' < 100) (hms' : ms' < 1000) :
    ParseTimestamp (stampText h m s ms ++ str " --> " ++ stampText h' m' s' ms') =
      .ok (((((h * 60 + m) * 60 + s) * 1000 + ms : Nat) : Int) * Millisecond)
        (((((h' * 60 + m') * 60 + s') * 1000 + ms' : Nat) : Int) * Millisecond) none := by
  have := parseTimestamp_canonical h m s ms h' m' s' ms' [] hh hm hs hms hh' hm' hs' hms'
    (by simp)
  simpa [posInfoOf] using this

/-- Witness of C4: the line of `TestParseTimestampNoPos`, and a line with 99 minutes. -/
theorem parseTimestamp_value_witness :
    ParseTimestamp TIMESTAMP_INPUT = .ok (4343442 * Millisecond) (4348116 * Millisecond) none ∧
      ParseTimestamp (str "00:99:00,000 --> 00:00:99,999") =
        .ok (5940000 * Millisecond) (99999 * Millisecond) none :=
  ⟨parseTimestamp_value 1 12 23 442 1 12 28 116 (by decide) (by decide) (by decide) (by decide)
      (by decide) (by decide) (by decide) (by decide),
    parseTimestamp_value 0 99 0 0 0 0 99 999 (by decide) (by decide) (by decide) (by decide)
      (by decide) (by decide) (by decide) (by decide)⟩

/-- C5 (the code at the failing input): the parser accepts a timing line at 25 hours and keeps
the 25 hours in the durations, but `FormatTimestamp` renders a duration of 25 hours with the
hours field `01`, not `25`: the hours wrap at the day boundary. -/
theorem formatTimestamp_25_hours :
    ParseTimestamp (str "25:00:00,000 --> 25:00:01,000") =
        .ok (25 * Hour) (25 * Hour + Second) none ∧
      FormatTimestamp (25 * Hour) = str "01:00:00,000" ∧
      FormatTimestamp (25 * Hour + Second) = str "01:00:01,000" := by
  decide

/-- C6 as stated fails: the accepted line `00:99:00,000 --> 00:00:00,000` is not what
`FormatTimestamp` gives for the two durations parsed from it. -/
theorem format_parse_counterexample :
    ParseTimestamp (str "00:99:00,000 --> 00:00:00,000") = .ok (99 * Minute) 0 none ∧
      FormatTimestamp (99 * Minute) ++ str " --> " ++ FormatTimestamp 0 ≠
        str "00:99:00,000 --> 00:00:00,000" := by
  decide

/-- C6, amended: for a line `HH:MM:SS,mmm --> HH:MM:SS,mmm` with `HH ≤ 23`, `MM ≤ 59` and
`SS ≤ 59` in both timestamps, `ParseTimestamp` gives two durations and no position info, and the
two durations formatted around ` --> ` give the line back. -/
theorem format_parse_in_range (h m s ms h' m' s' ms' : Nat)
    (hh : h < 24) (hm : m < 60) (hs : s < 60) (hms : ms < 1000)
    (hh' : h' < 24) (hm' : m' < 60) (hs' : s' < 60) (hms' : ms' < 1000) :
    ∃ start stop : Int,
      ParseTimestamp (stampText h m s ms ++ str " --> " ++ stampText h' m' s' ms') =
        .ok start stop none ∧
      FormatTimestamp start ++ str " --> " ++ FormatTimestamp stop =
        stampText h m s ms ++ str " --> " ++ stampText h' m' s' ms' := by
  have hp := parseTimestamp_canonical h m s ms h' m' s' ms' [] (by omega) (by omega) (by omega)
    hms (by omega) (by omega) (by omega) hms' (by simp)
  refine ⟨((((h * 60 + m) * 60 + s) * 1000 + ms : Nat) : Int) * Millisecond,
    ((((h' * 60 + m') * 60 + s') * 1000 + ms' : Nat) : Int) * Millisecond, ?_, ?_⟩
  · simpa [posInfoOf] using hp
  rw [formatTimestamp_fields h m s ms hh hm hs hms,
    formatTimestamp_fields h' m' s' ms' hh' hm' hs' hms']

/-- Witness of C6, amended: the line of `TestParseTimestampNoPos`. -/
theorem format_parse_in_range_witness :
    ∃ start stop : Int,
      ParseTimestamp (stampText 1 12 23 442 ++ str " --> " ++ stampText 1 12 28 116) =
        .ok start stop none ∧
      FormatTimestamp start ++ str " --> " ++ FormatTimestamp stop =
        stampText 1 12 23 442 ++ str " --> " ++ stampText 1 12 28 116 :=
  format_parse_in_range 1 12 23 442 1 12 28 116 (by decide) (by decide) (by decide) (by decide)
    (by decide) (by decide) (by decide) (by decide)

theorem firstSuffix_none_of_imp (p q : Bytes → Bool) (hpq : ∀ s, p s = true → q s = true)
    (input : Bytes) (h : firstSuffix q input = none) : firstSuffix p input = none := by
  induction input with
  | nil =>
    by_cases hq : q [] = true
    · simp [firstSuffix, hq] at h
    · have hp : ¬ p [] = true := fun hp => hq (hpq _ hp)
      simp [firstSuffix, hp]
  | cons b s ih =>
    by_cases hq : q (b :: s) = true
    · simp [firstSuffix, hq] at h
    · have hp : ¬ p (b :: s) = true := fun hp => hq (hpq _ hp)
      simp only [firstSuffix, hq] at h
      simp only [firstSuffix, hp]
      exact ih h

/-- C7 as stated fails: a line with three digits in the hours field is accepted, and the first
of the three digits is left out of the value. -/
theorem parseTimestamp_accepts_counterexample :
    ParseTimestamp (str "100:00:00,000 --> 00:00:00,000") = .ok 0 0 none := by
  decide

/-- C7, amended: a line that holds nowhere 29 bytes of the shape
`dd:dd:dd,ddd --> dd:dd:dd,ddd` (with any one blank of `[\t\n\f\r ]` on either side of the arrow)
is rejected with the header error. -/
theorem parseTimestamp_rejects (input : Bytes)
    (h : firstOccurrence timingPattern input = none) :
    ParseTimestamp input = .error .header := by
  rw [parseTimestamp_eq,
    firstSuffix_none_of_imp accepts (matchesPrefix timingPattern)
      (by intro s hs; simp only [accepts, Bool.and_eq_true] at hs; exact hs.1) input h]

/-- Witness of C7, amended: a field with too few digits, an arrow with one dash and a missing
second timestamp are rejected. -/
theorem parseTimestamp_rejects_witness :
    ParseTimestamp (str "0:00:23,065 --> 00:00:25,363") = .error .header ∧
      ParseTimestamp (str "00:00:23,065 -> 00:00:25,363") = .error .header ∧
      ParseTimestamp (str "00:00:23,065 --> ") = .error .header :=
  ⟨parseTimestamp_rejects _ (by decide), parseTimestamp_rejects _ (by decide),
    parseTimestamp_rejects _ (by decide)⟩

theorem accepts_of_no_lf (s : Bytes) (hlf : ∀ b ∈ s, b ≠ 10) :
    accepts s = matchesPrefix timingPattern s := by
  have : ((s.drop 29).dropWhile isSpace).all isDot = true := by
    apply all_dropWhile
    rw [List.all_eq_true]
    intro b hb
    have := hlf b (List.mem_of_mem_drop hb)
    simp [isDot, this]
  simp [accepts, this]

theorem firstSuffix_no_lf (input : Bytes) (hlf : ∀ b ∈ input, b ≠ 10) :
    firstSuffix accepts input = firstOccurrence timingPattern input := by
  unfold firstOccurrence
  induction input with
  | nil => simp [firstSuffix, accepts_of_no_lf [] hlf]
  | cons b s ih =>
    simp only [firstSuffix, accepts_of_no_lf (b :: s) hlf]
    rw [ih (fun x hx => hlf x (by simp [hx]))]

theorem firstSuffix_split (p : Bytes → Bool) (input suffix : Bytes)
    (h : firstSuffix p input = some suffix) : ∃ before, input = before ++ suffix := by
  induction input with
  | nil =>
    by_cases hp : p [] = true
    · simp only [firstSuffix, hp, if_true, Option.some.injEq] at h; exact ⟨[], by simp [← h]⟩
    · simp [firstSuffix, hp] at h
  | cons b s ih =>
    by_cases hp : p (b :: s) = true
    · simp only [firstSuffix, hp, if_true, Option.some.injEq] at h; exact ⟨[], by simp [← h]⟩
    · simp only [firstSuffix, hp] at h
      obtain ⟨before, hb⟩ := ih h
      exact ⟨b :: before, by simp [hb]⟩

/-- C8: for every accepted input there is a place `dd:dd:dd,ddd --> dd:dd:dd,ddd` in it, the one
the regexp matched, such that the position info is what follows its second timestamp without
the leading blanks, and is absent when that is empty (nothing, or only blanks, follows); for a
line, that is an input without LF, this place is the leftmost one of that shape. -/
theorem parseTimestamp_posInfo (input : Bytes) (start stop : Int) (posInfo : Option Bytes)
    (hok : ParseTimestamp input = .ok start stop posInfo) :
    ∃ before suffix : Bytes,
      input = before ++ suffix ∧ matchesPrefix timingPattern suffix = true ∧
      posInfo =
        (if ((suffix.drop 29).dropWhile isSpace).length ≠ 0 then
          some ((suffix.drop 29).dropWhile isSpace)
        else none) ∧
      ((∀ b ∈ input, b ≠ 10) → firstOccurrence timingPattern input = some suffix) := by
  rw [parseTimestamp_eq] at hok
  cases hfs : firstSuffix accepts input with
  | none => rw [hfs] at hok; simp at hok
  | some suffix =>
    rw [hfs] at hok
    simp only [ParseResult.ok.injEq] at hok
    obtain ⟨before, hsplit⟩ := firstSuffix_split _ _ _ hfs
    have hacc := firstSuffix_some _ _ _ hfs
    simp only [accepts, Bool.and_eq_true] at hacc
    refine ⟨before, suffix, hsplit, hacc.1, by rw [← hok.2.2]; rfl, ?_⟩
    intro hlf
    rw [← firstSuffix_no_lf input hlf, hfs]

/-- Witness of C8: the line of `TestParseTimestampPos`, with two blanks before the position
text, and a line with nothing but a blank after the second timestamp. -/
theorem parseTimestamp_posInfo_witness :
    (∃ before suffix : Bytes,
      TIMESTAMP_POS_INPUT = before ++ suffix ∧ matchesPrefix timingPattern suffix = true ∧
      some (str "X1:63 X2:223 Y1:43 Y2:58") =
        (if ((suffix.drop 29).dropWhile isSpace).length ≠ 0 then
          some ((suffix.drop 29).dropWhile isSpace)
        else none) ∧
      ((∀ b ∈ TIMESTAMP_POS_INPUT, b ≠ 10) →
        firstOccurrence timingPattern TIMESTAMP_POS_INPUT = some suffix)) ∧
    (∃ before suffix : Bytes,
      str "01:12:23,442 --> 01:12:28,116 " = before ++ suffix ∧
      matchesPrefix timingPattern suffix = true ∧
      none =
        (if ((suffix.drop 29).dropWhile isSpace).length ≠ 0 then
          some ((suffix.drop 29).dropWhile isSpace)
        else none) ∧
      ((∀ b ∈ str "01:12:23,442 --> 01:12:28,116 ", b ≠ 10) →
        firstOccurrence timingPattern (str "01:12:23,442 --> 01:12:28,116 ") = some suffix)) :=
  ⟨parseTimestamp_posInfo TIMESTAMP_POS_INPUT (4343442 * Millisecond) (4348116 * Millisecond)
      (some (str "X1:63 X2:223 Y1:43 Y2:58")) (by decide),
    parseTimestamp_posInfo (str "01:12:23,442 --> 01:12:28,116 ") (4343442 * Millisecond)
      (4348116 * Millisecond) none (by decide)⟩

/-! ## The parser (C2, C9, C10) -/

/-- C2: on a stream whose first non-empty line `indexStr` is accepted by `Atoi`, whose next line
is accepted by `ParseTimestamp`, and which goes on with the non-empty lines `text` and then an
empty line or the end of the stream, `ReadBlock` returns the block made of the index, the two
durations, the position info and exactly the lines `text`, whatever these lines look like; the
scanner is left behind the line that ended the block. -/
theorem readBlock_result (sc : Scanner) (n : Nat) (indexStr timing : Bytes) (text : List Bytes)
    (tail : List (Option Bytes)) (index start stop : Int) (posInfo : Option Bytes)
    (htoken : sc.token = []) (herr : sc.err = false)
    (hpending : sc.pending =
      List.replicate n (some []) ++ some indexStr :: some timing :: (text.map some ++ tail))
    (hindex : Atoi indexStr = some index)
    (htiming : ParseTimestamp timing = .ok start stop posInfo)
    (htext : ∀ line ∈ text, line ≠ [])
    (htail : tail = [] ∨ ∃ more, tail = some [] :: more) :
    ReadBlock sc =
      (.block { Index := index, From := start, To := stop, PosInfo := posInfo, Text := text },
        { token := [], err := false, pending := tail.tail }) := by
  obtain ⟨token, err, pending⟩ := sc
  simp only at htoken herr hpending
  subst htoken herr hpending
  exact readBlock_block n indexStr timing text tail index start stop posInfo hindex htiming
    htext htail

/-- Witness of C2: a block after two empty lines whose text lines look like an index and like a
timing line, ended by an empty line. -/
theorem readBlock_result_witness :
    ReadBlock (NewScanner (str
        "\r\n\r\n7\r\n00:00:01,000 --> 00:00:02,500\r\n42\r\n00:00:03,000 --> 00:00:04,000\r\n\r\n8\r\n")) =
      (.block { Index := 7, From := 1000 * Millisecond, To := 2500 * Millisecond,
                PosInfo := none, Text := [str "42", str "00:00:03,000 --> 00:00:04,000"] },
        { token := [], err := false, pending := [some (str "8")] }) :=
  readBlock_result _ 2 (str "7") (str "00:00:01,000 --> 00:00:02,500")
    [str "42", str "00:00:03,000 --> 00:00:04,000"] [some [], some (str "8")] 7
    (1000 * Millisecond) (2500 * Millisecond) none (by decide) (by decide) (by decide)
    (by decide) (by decide) (by decide) (Or.inr ⟨[some (str "8")], rfl⟩)

theorem readBlock_eof (n : Nat) :
    ReadBlock { token := [], err := false, pending := List.replicate n (some []) } =
      (.eof, { token := [], err := false, pending := [] }) := by
  unfold ReadBlock
  rw [skipEmpty_eof n _ (by simp)]

theorem eq_replicate_of_blank (pending : List (Option Bytes))
    (h : ∀ l ∈ pending, l = some []) : pending = List.replicate pending.length (some []) := by
  induction pending with
  | nil => rfl
  | cons a rest ih =>
    have ha : a = some [] := h a (by simp)
    have := ih (fun l hl => h l (by simp [hl]))
    rw [ha, List.length_cons, List.replicate_succ, ← this]

/-- C10: when only empty lines, or nothing, remain in the stream of a scanner without error,
`ReadBlock` returns end-of-stream and no error; the same holds for the call that follows the
reading of a block after which only empty lines, or nothing, remain. -/
theorem readBlock_clean_eof (sc : Scanner) (htoken : sc.token = []) (herr : sc.err = false)
    (hblank : ∀ l ∈ sc.pending, l = some []) :
    (ReadBlock sc).1 = .eof ∧
      ∀ (n : Nat) (indexStr timing : Bytes) (text : List Bytes) (index start stop : Int)
        (posInfo : Option Bytes),
        Atoi indexStr = some index → ParseTimestamp timing = .ok start stop posInfo →
        (∀ line ∈ text, line ≠ []) →
        ReadBlocks 2 { token := [], err := false,
                       pending := List.replicate n (some []) ++
                         some indexStr :: some timing :: (text.map some ++ sc.pending) } =
          [.block { Index := index, From := start, To := stop, PosInfo := posInfo,
                    Text := text }, .eof] := by
  obtain ⟨token, err, pending⟩ := sc
  simp only at htoken herr hblank
  subst htoken herr
  have hrep := eq_replicate_of_blank pending hblank
  refine ⟨by rw [hrep, readBlock_eof], ?_⟩
  intro n indexStr timing text index start stop posInfo hindex htiming htext
  have htail : pending = [] ∨ ∃ more, pending = some [] :: more := by
    cases pending with
    | nil => exact Or.inl rfl
    | cons a rest => exact Or.inr ⟨rest, by rw [hblank a (by simp)]⟩
  have hb := readBlock_block n indexStr timing text pending index start stop posInfo hindex
    htiming htext htail
  have htl : pending.tail = List.replicate pending.tail.length (some []) :=
    eq_replicate_of_blank _ (fun l hl => hblank l (List.mem_of_mem_tail hl))
  simp only [ReadBlocks, hb]
  rw [htl, readBlock_eof]

/-- Witness of C10: the empty input, and the input `BLOCK_1` followed by an empty line, where the
call after the block returns end-of-stream. -/
theorem readBlock_clean_eof_witness :
    (ReadBlock (NewScanner [])).1 = .eof ∧
      ReadBlocks 2 (NewScanner (BLOCK_1 ++ crlf ++ crlf)) = [.block block1, .eof] :=
  ⟨(readBlock_clean_eof (NewScanner []) (by decide) (by decide) (by decide)).1,
    (readBlock_clean_eof { token := [], err := false, pending := [some []] } (by decide)
      (by decide) (by decide)).2 0 (str "1") (str "00:00:23,065 --> 00:00:25,363")
      [str "Jennifer, this is Carrie", str "Mathison and Peter Quinn."] 1
      (23065 * Millisecond) (25363 * Millisecond) none (by decide) (by decide) (by decide)⟩

theorem readBlocks_stream (items : List (SourceBlock × Block × Nat))
    (hparse : ∀ it ∈ items, Atoi it.1.indexStr = some it.2.1.Index ∧
      ParseTimestamp it.1.timing = .ok it.2.1.From it.2.1.To it.2.1.PosInfo ∧
      it.2.1.Text = it.1.text)
    (htext : ∀ it ∈ items, ∀ line ∈ it.1.text, line ≠ []) :
    ∀ lead : Nat,
      ReadBlocks (items.length + 1)
          { token := [], err := false, pending := blankLines lead ++ srtLines items } =
        items.map (fun it => ReadResult.block it.2.1) ++ [.eof] := by
  induction items with
  | nil =>
    intro lead
    simp [ReadBlocks, srtLines, blankLines, readBlock_eof]
  | cons it rest ih =>
    intro lead
    obtain ⟨src, blk, gap⟩ := it
    obtain ⟨index, start, stop, posInfo, text⟩ := blk
    obtain ⟨hindex, htiming, htxt⟩ := hparse (src, ⟨index, start, stop, posInfo, text⟩, gap)
      (by simp)
    simp only at hindex htiming htxt
    subst htxt
    have hne := htext (src, ⟨index, start, stop, posInfo, src.text⟩, gap) (by simp)
    simp only at hne
    have ih' := ih (fun it hit => hparse it (by simp [hit]))
      (fun it hit => htext it (by simp [hit]))
    have hpending : blankLines lead ++ srtLines
        ((src, ⟨index, start, stop, posInfo, src.text⟩, gap) :: rest) =
        List.replicate lead (some []) ++ some src.indexStr :: some src.timing ::
          (src.text.map some ++
            (blankLines (if rest.length = 0 then gap else gap + 1) ++ srtLines rest)) := by
      simp [srtLines, SourceBlock.lines, blankLines]
    have key : ∃ lead', (blankLines (if rest.length = 0 then gap else gap + 1) ++
          srtLines rest = [] ∨ ∃ more, blankLines (if rest.length = 0 then gap else gap + 1) ++
          srtLines rest = some [] :: more) ∧
        (blankLines (if rest.length = 0 then gap else gap + 1) ++ srtLines rest).tail =
          blankLines lead' ++ srtLines rest := by
      cases rest with
      | nil =>
        cases gap with
        | zero => exact ⟨0, Or.inl (by simp [blankLines, srtLines]), by simp [blankLines, srtLines]⟩
        | succ g =>
          exact ⟨g, Or.inr ⟨blankLines g, by simp [blankLines, srtLines, List.replicate_succ]⟩,
            by simp [blankLines, srtLines, List.replicate_succ]⟩
      | cons r rs =>
        exact ⟨gap, Or.inr ⟨blankLines gap ++ srtLines (r :: rs),
            by simp [blankLines, List.replicate_succ]⟩,
          by simp [blankLines, List.replicate_succ]⟩
    obtain ⟨lead', htail, htl⟩ := key
    have hb := readBlock_block lead src.indexStr src.timing src.text _ index start stop posInfo
      hindex htiming hne htail
    rw [List.length_cons, ReadBlocks, hpending, hb]
    simp only [htl, ih' lead']
    simp

/-- C9: for every sequence of blocks given by their lines (an index line accepted by `Atoi`, a
timing line accepted by `ParseTimestamp`, non-empty text lines), the stream made of `lead` empty
lines, the blocks with one or more empty lines after each block but the last, and any number of
empty lines after the last, yields under successive calls of `ReadBlock` exactly the blocks, in
order, and then end-of-stream; the numbers of empty lines do not show in the result. -/
theorem readBlocks_separators (lead : Nat) (items : List (SourceBlock × Block × Nat))
    (hparse : ∀ it ∈ items, Atoi it.1.indexStr = some it.2.1.Index ∧
      ParseTimestamp it.1.timing = .ok it.2.1.From it.2.1.To it.2.1.PosInfo ∧
      it.2.1.Text = it.1.text)
    (htext : ∀ it ∈ items, ∀ line ∈ it.1.text, line ≠ []) :
    ReadBlocks (items.length + 1)
        { token := [], err := false, pending := blankLines lead ++ srtLines items } =
      items.map (fun it => ReadResult.block it.2.1) ++ [.eof] :=
  readBlocks_stream items hparse htext lead

/-- Witness of C9: the input `SRT_INPUT` of `TestReadBlock`, two blocks with two empty lines
between them, gives the two blocks and then end-of-stream. -/
theorem readBlocks_separators_witness :
    ReadBlocks 3 (NewScanner SRT_INPUT) = [.block block1, .block block2, .eof] :=
  readBlocks_separators 0
    [({ indexStr := str "1", timing := str "00:00:23,065 --> 00:00:25,363",
        text := [str "Jennifer, this is Carrie", str "Mathison and Peter Quinn."] }, block1, 1),
     ({ indexStr := str "2",
        timing := str "00:00:25,442 --> 00:00:28,116  X1:63 X2:223 Y1:43 Y2:58",
        text := [str "They were there with Sandy", str "when it happened."] }, block2, 0)]
    (by decide) (by decide)

/-! ## Lines too long for the scanner -/

theorem scanLines_long (l rest : Bytes) (hlf : ∀ b ∈ l, b ≠ 10) :
    ∀ cur : Bytes, cur.length < maxScanTokenSize → maxScanTokenSize ≤ cur.length + l.length →
      ∃ junk, scanLines cur (l ++ rest) = [none, some junk] := by
  induction l with
  | nil => intro cur h1 h2; simp at h2; omega
  | cons b l ih =>
    intro cur h1 h2
    have hb : b ≠ 10 := hlf b (by simp)
    by_cases hfull : cur.length + 1 ≥ maxScanTokenSize
    · exact ⟨_, by rw [List.cons_append, scanLines, if_neg hb, if_pos hfull]⟩
    · obtain ⟨junk, hj⟩ := ih (fun x hx => hlf x (by simp [hx])) (cur ++ [b])
        (by simp; omega) (by simp at h2 ⊢; omega)
      exact ⟨junk, by rw [List.cons_append, scanLines, if_neg hb, if_neg hfull, hj]⟩

theorem scanLines_crlf_cases (lines : List Bytes) (hlf : ∀ line ∈ lines, ∀ b ∈ line, b ≠ 10) :
    scanLines [] (lines.map (fun line => line ++ crlf)).flatten = lines.map some ∨
      ∃ (pre : List Bytes) (long : Bytes) (post : List Bytes) (junk : Bytes),
        lines = pre ++ long :: post ∧
        scanLines [] (lines.map (fun line => line ++ crlf)).flatten =
          pre.map some ++ [none, some junk] := by
  induction lines with
  | nil => left; simp [scanLines]
  | cons line lines ih =>
    have e : (List.map (fun line => line ++ crlf) (line :: lines)).flatten =
        (line ++ [13]) ++ 10 :: (lines.map (fun line => line ++ crlf)).flatten := by
      simp [crlf]
    have hl : ∀ b ∈ line ++ [13], b ≠ 10 := by
      intro b hb
      rcases List.mem_append.mp hb with hb | hb
      · exact hlf line (by simp) b hb
      · simp at hb; omega
    rw [e]
    by_cases hshort : line.length + 1 < maxScanTokenSize
    · rw [scanLines_line (line ++ [13]) _ hl [] (by simp; omega)]
      rcases ih (fun l hl' => hlf l (by simp [hl'])) with h | ⟨pre, long, post, junk, h1, h2⟩
      · left; rw [h]; simp [dropCR_snoc]
      · right
        exact ⟨line :: pre, long, post, junk, by rw [h1]; simp, by rw [h2]; simp [dropCR_snoc]⟩
    · right
      obtain ⟨junk, hj⟩ := scanLines_long (line ++ [13])
        (10 :: (lines.map (fun line => line ++ crlf)).flatten) hl []
        (by simp [maxScanTokenSize]) (by simp; omega)
      exact ⟨[], line, lines, junk, by simp, by rw [hj]; simp⟩

theorem readText_fail (text : List Bytes) (more : List (Option Bytes)) :
    (∀ line ∈ text, line ≠ []) →
    ∀ (fuel : Nat) (token : Bytes) (acc : List Bytes), text.length + 1 ≤ fuel →
      (ReadBlock.readText fuel
          { token := token, err := false, pending := text.map some ++ none :: more } acc).1 =
        none := by
  induction text with
  | nil =>
    intro _ fuel token acc hfuel
    obtain ⟨f, rfl⟩ : ∃ f, fuel = f + 1 := ⟨fuel - 1, by omega⟩
    simp [ReadBlock.readText, Scanner.Scan]
  | cons line text ih =>
    intro hne fuel token acc hfuel
    obtain ⟨f, rfl⟩ : ∃ f, fuel = f + 1 := ⟨fuel - 1, by omega⟩
    have hline : line ≠ [] := hne line (by simp)
    have hlen : line.length ≠ 0 := by
      intro h; exact hline (List.length_eq_zero.mp h)
    have := ih (fun l hl => hne l (by simp [hl])) f line (acc ++ [line])
      (by simp at hfuel; omega)
    simp [ReadBlock.readText, Scanner.Scan, hlen, this]

/-- When the scanner fails on a line of the block, `ReadBlock` returns no block. -/
theorem readBlock_truncated (indexStr timing : Bytes) (text : List Bytes) (index start stop : Int)
    (posInfo : Option Bytes) (hindex : Atoi indexStr = some index)
    (htiming : ParseTimestamp timing = .ok start stop posInfo)
    (htext : ∀ line ∈ text, line ≠ [])
    (pre : List Bytes) (long : Bytes) (post : List Bytes) (junk : Bytes)
    (hsplit : indexStr :: timing :: text = pre ++ long :: post) (b : Block) :
    (ReadBlock { token := [], err := false, pending := pre.map some ++ [none, some junk] }).1 ≠
      .block b := by
  have hne := atoi_ne_nil _ _ hindex
  cases pre with
  | nil => simp [ReadBlock, ReadBlock.skipEmpty, Scanner.Scan]
  | cons p0 pre =>
    simp only [List.cons_append, List.cons.injEq] at hsplit
    obtain ⟨rfl, hsplit⟩ := hsplit
    cases pre with
    | nil =>
      have hf := skipEmpty_found 0 indexStr [none, some junk] hne 4 false (by omega)
      simp only [List.replicate_zero, List.nil_append] at hf
      simp [ReadBlock, hf, hindex, Scanner.Scan]
    | cons p1 pre =>
      simp only [List.cons_append, List.cons.injEq] at hsplit
      obtain ⟨rfl, hsplit⟩ := hsplit
      have hf := skipEmpty_found 0 indexStr
        (some timing :: (pre.map some ++ [none, some junk])) hne
        ((some indexStr :: some timing :: (pre.map some ++ [none, some junk])).length + 1) false
        (by simp)
      simp only [List.replicate_zero, List.nil_append] at hf
      have hpre : ∀ line ∈ pre, line ≠ [] := by
        intro line hl
        exact htext line (by rw [hsplit]; simp [hl])
      have hr := readText_fail pre [some junk] hpre
        ((pre.map some ++ [none, some junk]).length + 1) timing [] (by simp)
      unfold ReadBlock
      simp only [List.map_cons, List.cons_append, hf, hindex, Scanner.Scan, htiming]
      generalize hrt : ReadBlock.readText
        ((pre.map some ++ [none, some junk]).length + 1)
        { token := timing, err := false, pending := pre.map some ++ [none, some junk] } [] = r
        at hr
      obtain ⟨r1, r2⟩ := r
      simp only at hr
      subst hr
      simp

/-! ## Writing after reading (C1) -/

theorem stampText_no_lf (h m s ms : Nat) : ∀ b ∈ stampText h m s ms, b ≠ 10 := by
  intro b hb
  have := stampText_cons h m s ms []
  rw [List.append_nil] at this
  rw [this] at hb
  simp only [List.mem_cons, List.mem_nil_iff, or_false] at hb
  omega

theorem posInfoOf_posText (posInfo : Option Bytes)
    (hpos : ∀ p, posInfo = some p → ∃ c rest, p = c :: rest ∧ isSpace c = false) :
    posInfoOf (posText posInfo) = posInfo := by
  cases posInfo with
  | none => simp [posText, posInfoOf]
  | some p =>
    obtain ⟨c, rest, rfl, hc⟩ := hpos p rfl
    have e : str " " = [32] := by decide
    have h32 : isSpace 32 = true := by decide
    simp [posText, posInfoOf, e, List.dropWhile_cons, h32, hc]

theorem posText_no_lf (posInfo : Option Bytes) (hpos : ∀ p, posInfo = some p → ∀ b ∈ p, b ≠ 10) :
    ∀ b ∈ posText posInfo, b ≠ 10 := by
  cases posInfo with
  | none => simp [posText]
  | some p =>
    have e : str " " = [32] := by decide
    intro b hb
    simp only [posText, e, List.singleton_append, List.mem_cons] at hb
    rcases hb with rfl | hb
    · decide
    · exact hpos p rfl b hb

theorem timingText_no_lf (h m s ms h' m' s' ms' : Nat) (posInfo : Option Bytes)
    (hpos : ∀ p, posInfo = some p → ∀ b ∈ p, b ≠ 10) :
    ∀ b ∈ timingText h m s ms h' m' s' ms' posInfo, b ≠ 10 := by
  intro b hb
  simp only [timingText, str_arrow, List.mem_append] at hb
  rcases hb with hb | hb | hb | hb
  · exact stampText_no_lf _ _ _ _ b hb
  · simp only [List.mem_cons, List.mem_nil_iff, or_false] at hb; omega
  · exact stampText_no_lf _ _ _ _ b hb
  · exact posText_no_lf posInfo hpos b hb

theorem parseTimestamp_timingText (h m s ms h' m' s' ms' : Nat) (posInfo : Option Bytes)
    (hh : h < 100) (hm : m < 100) (hs : s < 100) (hms : ms < 1000)
    (hh' : h' < 100) (hm' : m' < 100) (hs' : s' < 100) (hms' : ms' < 1000)
    (hpos : ∀ p, posInfo = some p →
      (∃ c rest, p = c :: rest ∧ isSpace c = false) ∧ ∀ b ∈ p, b ≠ 10) :
    ParseTimestamp (timingText h m s ms h' m' s' ms' posInfo) =
      .ok (((((h * 60 + m) * 60 + s) * 1000 + ms : Nat) : Int) * Millisecond)
        (((((h' * 60 + m') * 60 + s') * 1000 + ms' : Nat) : Int) * Millisecond) posInfo := by
  have hrest : ((posText posInfo).dropWhile isSpace).all isDot = true := by
    apply all_dropWhile
    rw [List.all_eq_true]
    intro b hb
    have := posText_no_lf posInfo (fun p hp => (hpos p hp).2) b hb
    simp [isDot, this]
  have := parseTimestamp_canonical h m s ms h' m' s' ms' (posText posInfo) hh hm hs hms
    hh' hm' hs' hms' hrest
  rw [posInfoOf_posText posInfo (fun p hp => (hpos p hp).1)] at this
  exact this

theorem blockText_flatten (indexStr timing : Bytes) (text : List Bytes) :
    blockText indexStr timing text =
      ((indexStr :: timing :: text).map (fun line => line ++ crlf)).flatten := by
  simp [blockText]

/-- C1 as stated fails: the text of `BLOCK_2` of the tests (with the CR LF that ends its last
line) is parsed, and `WriteBlock` writes the block with one blank before the position text
where the input has two. -/
theorem write_after_read_counterexample :
    (ReadBlock (NewScanner (BLOCK_2 ++ crlf))).1 = .block block2 ∧
      (block2.WriteBlock emptyBuffer).2.out ≠ BLOCK_2 ++ crlf := by
  decide

/-- C1, amended: take the text of a block in the form the serializer writes: the index line is
an `int` as `%d` prints it, the timing line is `HH:MM:SS,mmm --> HH:MM:SS,mmm` with `HH ≤ 23`,
`MM ≤ 59`, `SS ≤ 59`, followed by nothing or by one space and a position text that starts with a
byte that is no blank, the text lines are not empty, no line holds LF and every line ends in
CR LF. Whenever `ReadBlock` parses this text, `WriteBlock` applied to the block it returns
writes exactly the text; and `ReadBlock` does parse it when every line is short enough for the
scanner. -/
theorem write_after_read_canonical (index : Int) (h m s ms h' m' s' ms' : Nat)
    (posInfo : Option Bytes) (text : List Bytes) (wr : Writer)
    (hindex : -(2 ^ 63 : Int) ≤ index ∧ index < 2 ^ 63)
    (hh : h < 24) (hm : m < 60) (hs : s < 60) (hms : ms < 1000)
    (hh' : h' < 24) (hm' : m' < 60) (hs' : s' < 60) (hms' : ms' < 1000)
    (hpos : ∀ p, posInfo = some p →
      (∃ c rest, p = c :: rest ∧ isSpace c = false) ∧ ∀ b ∈ p, b ≠ 10)
    (htext : ∀ line ∈ text, line ≠ [] ∧ ∀ b ∈ line, b ≠ 10)
    (hwr : ∀ e ∈ wr.script, e = none) :
    (∀ b : Block,
      (ReadBlock (NewScanner
        (blockText (formatInt index) (timingText h m s ms h' m' s' ms' posInfo) text))).1 =
          .block b →
      (b.WriteBlock wr).2.out =
        wr.out ++ blockText (formatInt index) (timingText h m s ms h' m' s' ms' posInfo) text) ∧
    ((∀ line ∈ formatInt index :: timingText h m s ms h' m' s' ms' posInfo :: text,
        line.length + 1 < maxScanTokenSize) →
      ∃ b : Block,
        (ReadBlock (NewScanner
          (blockText (formatInt index) (timingText h m s ms h' m' s' ms' posInfo) text))).1 =
            .block b) := by
  have hatoi := atoi_formatInt index hindex.1 hindex.2
  have hparse := parseTimestamp_timingText h m s ms h' m' s' ms' posInfo (by omega) (by omega)
    (by omega) hms (by omega) (by omega) (by omega) hms' hpos
  have hne : ∀ line ∈ text, line ≠ [] := fun l hl => (htext l hl).1
  have hlf : ∀ line ∈ formatInt index :: timingText h m s ms h' m' s' ms' posInfo :: text,
      ∀ b ∈ line, b ≠ 10 := by
    intro line hl
    simp only [List.mem_cons] at hl
    rcases hl with rfl | rfl | hl
    · exact formatInt_no_lf index
    · exact timingText_no_lf _ _ _ _ _ _ _ _ posInfo (fun p hp => (hpos p hp).2)
    · exact (htext line hl).2
  have hgood : scanLines [] (blockText (formatInt index)
        (timingText h m s ms h' m' s' ms' posInfo) text) =
      (formatInt index :: timingText h m s ms h' m' s' ms' posInfo :: text).map some →
      (ReadBlock (NewScanner
        (blockText (formatInt index) (timingText h m s ms h' m' s' ms' posInfo) text))).1 =
        .block { Index := index,
                 From := ((((h * 60 + m) * 60 + s) * 1000 + ms : Nat) : Int) * Millisecond,
                 To := ((((h' * 60 + m') * 60 + s') * 1000 + ms' : Nat) : Int) * Millisecond,
                 PosInfo := posInfo, Text := text } := by
    intro hs
    have hb := readBlock_block 0 (formatInt index) (timingText h m s ms h' m' s' ms' posInfo)
      text [] index _ _ posInfo hatoi hparse hne (Or.inl rfl)
    simp only [List.replicate_zero, List.nil_append, List.append_nil] at hb
    simp only [NewScanner, hs, List.map_cons, hb]
  constructor
  · intro b hb
    rcases scanLines_crlf_cases _ hlf with hsc | ⟨pre, long, post, junk, hsplit, hsc⟩
    · rw [← blockText_flatten] at hsc
      rw [hgood hsc] at hb
      simp only [ReadResult.block.injEq] at hb
      subst hb
      rw [(writeBlock_accepting _ wr hwr).2]
      simp only [formatTimestamp_fields h m s ms hh hm hs hms,
        formatTimestamp_fields h' m' s' ms' hh' hm' hs' hms', timingText, List.append_assoc]
    · rw [← blockText_flatten] at hsc
      exfalso
      refine readBlock_truncated (formatInt index) (timingText h m s ms h' m' s' ms' posInfo)
        text index _ _ posInfo hatoi hparse hne pre long post junk hsplit b ?_
      simpa only [NewScanner, hsc] using hb
  · intro hlen
    have hsc := scanLines_crlf _ hlf hlen
    rw [← blockText_flatten] at hsc
    exact ⟨_, hgood hsc⟩

/-- Witness of C1, amended: the text `BLOCK_1` of `TestWriteBlock`, with the CR LF that ends
its last line, is parsed and written back byte for byte. -/
theorem write_after_read_canonical_witness :
    (∃ b : Block, (ReadBlock (NewScanner (BLOCK_1 ++ crlf))).1 = .block b) ∧
      (ReadBlock (NewScanner (BLOCK_1 ++ crlf))).1 = .block block1 ∧
      (block1.WriteBlock emptyBuffer).2.out = BLOCK_1 ++ crlf := by
  have hw := write_after_read_canonical 1 0 0 23 65 0 0 25 363 none
    [str "Jennifer, this is Carrie", str "Mathison and Peter Quinn."] emptyBuffer
    (by decide) (by decide) (by decide) (by decide) (by decide) (by decide) (by decide)
    (by decide) (by decide) (by simp) (by decide) (by decide)
  have hread : (ReadBlock (NewScanner (BLOCK_1 ++ crlf))).1 = .block block1 := by decide
  exact ⟨hw.2 (by decide), hread, hw.1 block1 hread⟩

/-! ## Errors of the parser (C11, C12) -/

theorem readBlock_bad_index (n : Nat) (indexStr : Bytes) (rest : List (Option Bytes))
    (err : Bool) (hne : indexStr ≠ []) (hbad : Atoi indexStr = none) :
    ReadBlock { token := [], err := err,
                pending := List.replicate n (some []) ++ some indexStr :: rest } =
      (.error .parseIndex, { token := indexStr, err := err, pending := rest }) := by
  unfold ReadBlock
  rw [skipEmpty_found n indexStr rest hne _ err (by simp)]
  simp [hbad]

/-- C11: on a stream whose first non-empty line is rejected by `Atoi`, `ReadBlock` returns the
error "Could not parse block index" and no block, whatever follows that line. -/
theorem readBlock_malformed_index (sc : Scanner) (n : Nat) (indexStr : Bytes)
    (rest : List (Option Bytes)) (htoken : sc.token = [])
    (hpending : sc.pending = List.replicate n (some []) ++ some indexStr :: rest)
    (hne : indexStr ≠ []) (hbad : Atoi indexStr = none) :
    (ReadBlock sc).1 = .error .parseIndex ∧ ∀ b : Block, (ReadBlock sc).1 ≠ .block b := by
  obtain ⟨token, err, pending⟩ := sc
  simp only at htoken hpending
  subst htoken hpending
  rw [readBlock_bad_index n indexStr rest err hne hbad]
  simp

/-- Witness of C11: an index line that is no number, and one with blanks around the number,
each followed by an otherwise well-formed block. -/
theorem readBlock_malformed_index_witness :
    ((ReadBlock (NewScanner (str "\r\none\r\n00:00:23,065 --> 00:00:25,363\r\ntext\r\n"))).1 =
        .error .parseIndex ∧
      ∀ b : Block,
        (ReadBlock (NewScanner (str "\r\none\r\n00:00:23,065 --> 00:00:25,363\r\ntext\r\n"))).1 ≠
          .block b) ∧
    ((ReadBlock (NewScanner (str " 1 \r\n00:00:23,065 --> 00:00:25,363\r\ntext\r\n"))).1 =
        .error .parseIndex ∧
      ∀ b : Block,
        (ReadBlock (NewScanner (str " 1 \r\n00:00:23,065 --> 00:00:25,363\r\ntext\r\n"))).1 ≠
          .block b) :=
  ⟨readBlock_malformed_index _ 1 (str "one")
      [some (str "00:00:23,065 --> 00:00:25,363"), some (str "text")] (by decide) (by decide)
      (by decide) (by decide),
    readBlock_malformed_index _ 0 (str " 1 ")
      [some (str "00:00:23,065 --> 00:00:25,363"), some (str "text")] (by decide) (by decide)
      (by decide) (by decide)⟩

theorem readBlock_no_timing (n : Nat) (indexStr : Bytes) (index : Int)
    (tail : List (Option Bytes)) (err : Bool) (hindex : Atoi indexStr = some index)
    (htail : tail = [] ∨ ∃ more, tail = none :: more) :
    (ReadBlock { token := [], err := err,
                 pending := List.replicate n (some []) ++ some indexStr :: tail }).1 =
      .error .readTimestamp := by
  unfold ReadBlock
  rw [skipEmpty_found n indexStr tail (atoi_ne_nil _ _ hindex) _ err (by simp)]
  rcases htail with rfl | ⟨more, rfl⟩ <;> simp [hindex, Scanner.Scan]

theorem readBlock_bad_timing (n : Nat) (indexStr timing : Bytes) (index : Int)
    (rest : List (Option Bytes)) (err : Bool) (e : ParseError)
    (hindex : Atoi indexStr = some index) (htiming : ParseTimestamp timing = .error e) :
    (ReadBlock { token := [], err := err,
                 pending := List.replicate n (some []) ++
                   some indexStr :: some timing :: rest }).1 =
      .error (.parseTimestamp e) := by
  unfold ReadBlock
  rw [skipEmpty_found n indexStr _ (atoi_ne_nil _ _ hindex) _ err (by simp)]
  simp [hindex, Scanner.Scan, htiming]

/-- C12: after any number of empty lines and an index line accepted by `Atoi`, when the stream
ends there (at the end of the input, or because the reader fails), `ReadBlock` returns the error
"Could not read timestamp" and not end-of-stream; and when a line follows that `ParseTimestamp`
rejects, `ReadBlock` returns the error "Could not parse timestamp"; no block is returned in
either case. -/
theorem readBlock_timing_errors (n : Nat) (indexStr : Bytes) (index : Int) (err : Bool)
    (hindex : Atoi indexStr = some index) :
    (∀ tail : List (Option Bytes), (tail = [] ∨ ∃ more, tail = none :: more) →
      (ReadBlock { token := [], err := err,
                   pending := List.replicate n (some []) ++ some indexStr :: tail }).1 =
        .error .readTimestamp) ∧
    (∀ (timing : Bytes) (rest : List (Option Bytes)) (e : ParseError),
      ParseTimestamp timing = .error e →
      (ReadBlock { token := [], err := err,
                   pending := List.replicate n (some []) ++
                     some indexStr :: some timing :: rest }).1 =
        .error (.parseTimestamp e)) :=
  ⟨fun tail htail => readBlock_no_timing n indexStr index tail err hindex htail,
    fun timing rest e htiming =>
      readBlock_bad_timing n indexStr timing index rest err e hindex htiming⟩

/-- Witness of C12: an input that ends after the index line, and an input whose timing line has
an arrow with one dash. -/
theorem readBlock_timing_errors_witness :
    (ReadBlock (NewScanner (str "1\r\n"))).1 = .error .readTimestamp ∧
      (ReadBlock (NewScanner (str "1\r\n00:00:23,065 -> 00:00:25,363\r\ntext\r\n"))).1 =
        .error (.parseTimestamp .header) :=
  ⟨(readBlock_timing_errors 0 (str "1") 1 false (by decide)).1 [] (Or.inl rfl),
    (readBlock_timing_errors 0 (str "1") 1 false (by decide)).2
      (str "00:00:23,065 -> 00:00:25,363") [some (str "text")] .header (by decide)⟩

/-! ## Errors of the serializer (C13) -/

/-- C13 (the code at the failing input): on a writer whose third write fails, `WriteBlock`
returns no error, for a block without position info and without text lines and for the second
block of the tests; the line terminator, or the position info with it, is missing from what
was written. -/
theorem writeBlock_swallows_error :
    bareBlock.WriteBlock failsOnThirdWrite =
        (none, { out := str "1\r\n00:00:00,000 --> 00:00:01,000", script := [] }) ∧
      (block2.WriteBlock failsOnThirdWrite).1 = none ∧
      (block2.WriteBlock failsOnThirdWrite).2.out =
        str "2\r\n00:00:25,442 --> 00:00:28,116They were there with Sandy\r\nwhen it happened.\r\n" := by
  decide

/-! ## Rendering of timestamps (C14) -/

theorem stampText_length (h m s ms : Nat) : (stampText h m s ms).length = 12 := by
  simp [stampText, zeroPad_length]

/-- C14: for a duration `d` with `0 ≤ d < 24 h`, `FormatTimestamp d` is the text `HH:MM:SS,mmm`
of 12 bytes with `HH = d / 1h`, `MM = (d / 1min) mod 60`, `SS = (d / 1s) mod 60` and
`mmm = (d / 1ms) mod 1000` in integer division (what is below one millisecond is dropped), each
field zero-padded to its width, with a comma before the milliseconds. -/
theorem formatTimestamp_rendering (d : Int) (h0 : 0 ≤ d) (h1 : d < 24 * Hour) :
    FormatTimestamp d =
        zeroPad 2 (d / Hour).toNat ++ [58] ++ zeroPad 2 (d / Minute % 60).toNat ++ [58] ++
          zeroPad 2 (d / Second % 60).toNat ++ [44] ++ zeroPad 3 (d / Millisecond % 1000).toNat ∧
      (FormatTimestamp d).length = 12 := by
  have key : FormatTimestamp d =
      stampText (d / Hour).toNat (d / Minute % 60).toNat (d / Second % 60).toNat
        (d / Millisecond % 1000).toNat := by
    rw [formatTimestamp_eq]
    simp only [Hour, Minute, Second, Millisecond] at h1 ⊢
    norm_num at h1 ⊢
    congr 1 <;> omega
  refine ⟨by rw [key]; rfl, by rw [key, stampText_length]⟩

/-- Witness of C14: 1 h 12 min 23 s 442 ms and 999999 ns is rendered as `01:12:23,442`. -/
theorem formatTimestamp_rendering_witness :
    FormatTimestamp 4343442999999 = str "01:12:23,442" ∧
      (FormatTimestamp 4343442999999).length = 12 :=
  formatTimestamp_rendering 4343442999999 (by decide) (by decide)

/-! ## The exact acceptance condition of `ParseTimestamp` (C19) -/

theorem firstSuffix_of_suffix (p : Bytes → Bool) (before suffix : Bytes)
    (hp : p suffix = true) : ∃ found, firstSuffix p (before ++ suffix) = some found := by
  induction before with
  | nil =>
    cases suffix with
    | nil => exact ⟨[], by simp [firstSuffix, hp]⟩
    | cons b s => exact ⟨b :: s, by simp [firstSuffix, hp]⟩
  | cons a before ih =>
    by_cases ha : p (a :: (before ++ suffix)) = true
    · exact ⟨a :: (before ++ suffix), by simp [firstSuffix, ha]⟩
    · obtain ⟨found, hf⟩ := ih
      exact ⟨found, by rw [List.cons_append, firstSuffix, if_neg ha]; exact hf⟩

theorem parseTimestamp_error_header (input : Bytes) (e : ParseError)
    (h : ParseTimestamp input = .error e) : e = .header := by
  rw [parseTimestamp_eq] at h
  cases hfs : firstSuffix accepts input with
  | none => rw [hfs] at h; simp only [ParseResult.error.injEq] at h; exact h.symm
  | some suf => rw [hfs] at h; simp at h

theorem parseTimestamp_of_line (input : Bytes) (hlf : ∀ b ∈ input, b ≠ 10) :
    ParseTimestamp input =
      match firstOccurrence timingPattern input with
      | some suffix =>
        .ok (stampNanos suffix) (stampNanos (suffix.drop 17)) (posInfoOf (suffix.drop 29))
      | none => .error .header := by
  rw [parseTimestamp_eq, firstSuffix_no_lf input hlf]

/-- C19: for a line, that is an input without LF, `ParseTimestamp` succeeds if and only if
somewhere in the line start 29 bytes of the shape `dd:dd:dd,ddd --> dd:dd:dd,ddd` (with any one
byte of `[\t\n\f\r ]` on either side of the arrow); the durations and the position info are
those of the leftmost such place; and the only error is the one of the regexp, the conversions
of the digit groups never fail. -/
theorem parseTimestamp_accepts_iff (input : Bytes) (hlf : ∀ b ∈ input, b ≠ 10) :
    ((∃ (start stop : Int) (posInfo : Option Bytes),
        ParseTimestamp input = .ok start stop posInfo) ↔
      ∃ before suffix : Bytes,
        input = before ++ suffix ∧ matchesPrefix timingPattern suffix = true) ∧
    (∀ suffix : Bytes, firstOccurrence timingPattern input = some suffix →
      ParseTimestamp input =
        .ok (stampNanos suffix) (stampNanos (suffix.drop 17)) (posInfoOf (suffix.drop 29))) ∧
    (∀ e : ParseError, ParseTimestamp input = .error e → e = .header) := by
  have hline := parseTimestamp_of_line input hlf
  refine ⟨⟨?_, ?_⟩, ?_, fun e he => parseTimestamp_error_header input e he⟩
  · rintro ⟨start, stop, posInfo, hok⟩
    rw [hline] at hok
    cases hfo : firstOccurrence timingPattern input with
    | none => rw [hfo] at hok; simp at hok
    | some suffix =>
      obtain ⟨before, hsplit⟩ := firstSuffix_split _ _ _ hfo
      exact ⟨before, suffix, hsplit, firstSuffix_some _ _ _ hfo⟩
  · rintro ⟨before, suffix, hsplit, hm⟩
    obtain ⟨found, hf⟩ := firstSuffix_of_suffix (matchesPrefix timingPattern) before suffix hm
    rw [← hsplit] at hf
    rw [hline]
    unfold firstOccurrence
    rw [hf]
    exact ⟨_, _, _, rfl⟩
  · intro suffix hfo
    rw [hline, hfo]

/-- Witness of C19: a line with bytes before the first timestamp, a tab before the arrow and two
places of the shape; the values are those of the leftmost place. -/
theorem parseTimestamp_accepts_iff_witness :
    ParseTimestamp (str "at 00:00:01,000\t--> 00:00:02,000 00:00:03,000 --> 00:00:04,000") =
      .ok (1000 * Millisecond) (2000 * Millisecond)
        (some (str "00:00:03,000 --> 00:00:04,000")) :=
  (parseTimestamp_accepts_iff
    (str "at 00:00:01,000\t--> 00:00:02,000 00:00:03,000 --> 00:00:04,000") (by decide)).2.1
    (str "00:00:01,000\t--> 00:00:02,000 00:00:03,000 --> 00:00:04,000") (by decide)

/-! ## Well-formedness of the blocks `ReadBlock` returns (C17) -/

theorem dropWhile_head (p : Nat → Bool) (l : Bytes) (c : Nat) (rest : Bytes)
    (h : l.dropWhile p = c :: rest) : p c = false := by
  induction l with
  | nil => simp at h
  | cons a l ih =>
    by_cases ha : p a = true
    · simp only [List.dropWhile_cons, ha, if_true] at h; exact ih h
    · simp only [List.dropWhile_cons, ha] at h
      simp only [Bool.false_eq_true, if_false, List.cons.injEq] at h
      rw [← h.1]; simpa using ha

theorem posInfoOf_some (rest p : Bytes) (h : posInfoOf rest = some p) :
    ∃ c tail, p = c :: tail ∧ isSpace c = false := by
  unfold posInfoOf at h
  split_ifs at h with hlen
  simp only [Option.some.injEq] at h
  cases hp : p with
  | nil => rw [← h] at hp; simp [hp] at hlen
  | cons c tail =>
    rw [hp] at h
    exact ⟨c, tail, rfl, dropWhile_head isSpace rest c tail h⟩

theorem stampNanos_range (t : Bytes)
    (h1 : (t.take 2).all isDigit = true ∧ (t.take 2).length = 2)
    (h2 : ((t.drop 3).take 2).all isDigit = true ∧ ((t.drop 3).take 2).length = 2)
    (h3 : ((t.drop 6).take 2).all isDigit = true ∧ ((t.drop 6).take 2).length = 2)
    (h4 : ((t.drop 9).take 3).all isDigit = true ∧ ((t.drop 9).take 3).length = 3) :
    ∃ k : Nat, stampNanos t = (k : Int) * Millisecond ∧ k ≤ 362439999 := by
  have b1 := decimalValue_lt _ h1.1
  have b2 := decimalValue_lt _ h2.1
  have b3 := decimalValue_lt _ h3.1
  have b4 := decimalValue_lt _ h4.1
  rw [h1.2] at b1
  rw [h2.2] at b2
  rw [h3.2] at b3
  rw [h4.2] at b4
  refine ⟨((decimalValue (t.take 2) * 60 + decimalValue ((t.drop 3).take 2)) * 60 +
    decimalValue ((t.drop 6).take 2)) * 1000 + decimalValue ((t.drop 9).take 3), ?_, ?_⟩
  · simp only [stampNanos, Hour, Minute, Second, Millisecond]
    push_cast
    ring
  · norm_num at b1 b2 b3 b4
    omega

/-- What `ParseTimestamp` returns when it succeeds: two durations that are whole milliseconds
between 0 and 99 h 99 min 99 s 999 ms, and a position info that is absent or starts with a byte
that is no blank. -/
theorem parseTimestamp_ok_wellformed (input : Bytes) (start stop : Int)
    (posInfo : Option Bytes) (hok : ParseTimestamp input = .ok start stop posInfo) :
    (∃ k : Nat, start = (k : Int) * Millisecond ∧ k ≤ 362439999) ∧
    (∃ k : Nat, stop = (k : Int) * Millisecond ∧ k ≤ 362439999) ∧
    (∀ p, posInfo = some p → ∃ c tail, p = c :: tail ∧ isSpace c = false) := by
  rw [parseTimestamp_eq] at hok
  cases hfs : firstSuffix accepts input with
  | none => rw [hfs] at hok; simp at hok
  | some suf =>
    rw [hfs] at hok
    simp only [ParseResult.ok.injEq] at hok
    obtain ⟨hstart, hstop, hpos⟩ := hok
    have hacc := firstSuffix_some _ _ _ hfs
    simp only [accepts, Bool.and_eq_true] at hacc
    have hm := hacc.1
    have g1 := digits_at 0 2 suf hm rfl rfl
    have g2 := digits_at 3 2 suf hm rfl rfl
    have g3 := digits_at 6 2 suf hm rfl rfl
    have g4 := digits_at 9 3 suf hm rfl rfl
    have g5 := digits_at 17 2 suf hm rfl rfl
    have g6 := digits_at 20 2 suf hm rfl rfl
    have g7 := digits_at 23 2 suf hm rfl rfl
    have g8 := digits_at 26 3 suf hm rfl rfl
    refine ⟨?_, ?_, ?_⟩
    · rw [← hstart]
      exact stampNanos_range suf (by simpa using g1) g2 g3 g4
    · rw [← hstop]
      exact stampNanos_range (suf.drop 17) (by simpa using g5)
        (by simpa [List.drop_drop] using g6) (by simpa [List.drop_drop] using g7)
        (by simpa [List.drop_drop] using g8)
    · intro p hp
      rw [← hpos] at hp
      exact posInfoOf_some _ p hp

theorem readText_nonempty :
    ∀ (fuel : Nat) (sc : Scanner) (acc text : List Bytes),
      (ReadBlock.readText fuel sc acc).1 = some text → (∀ l ∈ acc, l ≠ []) →
      ∀ l ∈ text, l ≠ [] := by
  intro fuel
  induction fuel with
  | zero =>
    intro sc acc text h hacc
    simp only [ReadBlock.readText, Option.some.injEq] at h
    rw [← h]; exact hacc
  | succ fuel ih =>
    intro sc acc text h hacc
    simp only [ReadBlock.readText] at h
    split_ifs at h with h1 h2 h3
    · simp only [Option.some.injEq] at h; rw [← h]; exact hacc
    · simp only [Option.some.injEq] at h; rw [← h]; exact hacc
    · refine ih _ _ text h ?_
      intro l hl
      rcases List.mem_append.mp hl with hl | hl
      · exact hacc l hl
      · simp only [List.mem_singleton] at hl
        rw [hl]
        intro hnil
        exact h3 (by rw [hnil]; rfl)

theorem skipEmpty_some :
    ∀ (fuel : Nat) (sc sc' : Scanner) (r : ReadResult),
      ReadBlock.skipEmpty fuel sc = (some r, sc') → r = .error .readFile ∨ r = .eof := by
  intro fuel
  induction fuel with
  | zero =>
    intro sc sc' r h
    simp only [ReadBlock.skipEmpty, Prod.mk.injEq, Option.some.injEq] at h
    exact Or.inl h.1.symm
  | succ fuel ih =>
    intro sc sc' r h
    simp only [ReadBlock.skipEmpty] at h
    split_ifs at h with h0 h1 h2
    · simp at h
    · simp only [Prod.mk.injEq, Option.some.injEq] at h; exact Or.inl h.1.symm
    · simp only [Prod.mk.injEq, Option.some.injEq] at h; exact Or.inr h.1.symm
    · exact ih _ _ _ h

/-- What a successful `ReadBlock` went through: the timing line was accepted with the times and
the position info of the block, and the text is what the second loop collected. -/
theorem readBlock_block_inv (sc : Scanner) (b : Block) (h : (ReadBlock sc).1 = .block b) :
    ∃ (timing : Bytes) (fuel : Nat) (sc' : Scanner),
      ParseTimestamp timing = .ok b.From b.To b.PosInfo ∧
      (ReadBlock.readText fuel sc' []).1 = some b.Text := by
  unfold ReadBlock at h
  split at h
  · rename_i r sc1 hskip
    simp only at h
    rcases skipEmpty_some _ _ _ _ hskip with hr | hr <;> rw [hr] at h <;> simp at h
  · rename_i sc1 hskip
    simp only at h
    split at h
    · simp at h
    · rename_i index hindex
      split_ifs at h with hscan
      split at h
      · simp at h
      · rename_i start stop posInfo hparse
        split at h
        · simp at h
        · rename_i text sc2 hread
          simp only [ReadResult.block.injEq] at h
          subst h
          exact ⟨_, _, _, hparse, by rw [hread]⟩

/-- C17: every block that `ReadBlock` returns, from any state of the scanner, has only non-empty
text lines, a position info that is absent or a non-empty text starting with a byte that is no
blank of `[\t\n\f\r ]`, and times `From` and `To` that are whole numbers of milliseconds between
0 and 362439999 ms = 99 h + 99 min + 99 s + 999 ms, far inside the 64-bit range. -/
theorem readBlock_wellformed (sc : Scanner) (b : Block) (h : (ReadBlock sc).1 = .block b) :
    (∀ line ∈ b.Text, line ≠ []) ∧
    (∀ p, b.PosInfo = some p → ∃ c tail, p = c :: tail ∧ isSpace c = false) ∧
    (∃ k : Nat, b.From = (k : Int) * Millisecond ∧ k ≤ 362439999) ∧
    (∃ k : Nat, b.To = (k : Int) * Millisecond ∧ k ≤ 362439999) ∧
    b.From < 2 ^ 63 ∧ b.To < 2 ^ 63 := by
  obtain ⟨timing, fuel, sc', hparse, hread⟩ := readBlock_block_inv sc b h
  obtain ⟨hfrom, hto, hpos⟩ := parseTimestamp_ok_wellformed timing _ _ _ hparse
  refine ⟨readText_nonempty fuel sc' [] b.Text hread (by simp), hpos, hfrom, hto, ?_, ?_⟩
  · obtain ⟨k, hk, hle⟩ := hfrom
    rw [hk]; simp only [Millisecond]; norm_num; omega
  · obtain ⟨k, hk, hle⟩ := hto
    rw [hk]; simp only [Millisecond]; norm_num; omega

/-- Witness of C17: the first block of `SRT_INPUT`, and the block of an input whose timing line
has the largest fields and blanks before the position text. -/
theorem readBlock_wellformed_witness :
    ((∀ line ∈ block1.Text, line ≠ []) ∧
      (∀ p, block1.PosInfo = some p → ∃ c tail, p = c :: tail ∧ isSpace c = false) ∧
      (∃ k : Nat, block1.From = (k : Int) * Millisecond ∧ k ≤ 362439999) ∧
      (∃ k : Nat, block1.To = (k : Int) * Millisecond ∧ k ≤ 362439999) ∧
      block1.From < 2 ^ 63 ∧ block1.To < 2 ^ 63) ∧
    (∃ k : Nat, (362439999 : Int) * Millisecond = (k : Int) * Millisecond ∧ k ≤ 362439999) :=
  ⟨readBlock_wellformed (NewScanner SRT_INPUT) block1 (by decide),
    (readBlock_wellformed (NewScanner (str "5\r\n99:99:99,999 --> 00:00:00,000 \t X1\r\nx\r\n"))
      { Index := 5, From := 362439999 * Millisecond, To := 0, PosInfo := some (str "X1"),
        Text := [str "x"] } (by decide)).2.2.1⟩

/-! ## The timing line the serializer writes (C18) -/

theorem formatTimestamp_stampText (dur : Int) :
    ∃ h m s ms : Nat, h < 24 ∧ m < 60 ∧ s < 60 ∧ ms < 1000 ∧
      FormatTimestamp dur = stampText h m s ms := by
  have hns0 : 0 ≤ dur % 1000000000 := Int.emod_nonneg _ (by norm_num)
  have hns1 : dur % 1000000000 < 1000000000 := Int.emod_lt_of_pos _ (by norm_num)
  have hs0 : 0 ≤ dur / 1000000000 % 86400 := Int.emod_nonneg _ (by norm_num)
  have hs1 : dur / 1000000000 % 86400 < 86400 := Int.emod_lt_of_pos _ (by norm_num)
  exact ⟨_, _, _, _, by omega, by omega, by omega, by omega, formatTimestamp_eq dur⟩

/-- C18: for every block whose position info holds no LF, with any `From` and `To`, the timing
line `WriteBlock` writes is `HH:MM:SS,mmm --> HH:MM:SS,mmm` (12 + 5 + 12 bytes, fields in clock
range) followed by the position part, and `ParseTimestamp` accepts this line. -/
theorem writeBlock_timing_accepted (b : Block) (wr : Writer)
    (hwr : ∀ e ∈ wr.script, e = none) (hpos : ∀ p, b.PosInfo = some p → ∀ x ∈ p, x ≠ 10) :
    ∃ (h m s ms h' m' s' ms' : Nat),
      (b.WriteBlock wr).2.out =
        wr.out ++ blockText (formatInt b.Index) (timingText h m s ms h' m' s' ms' b.PosInfo)
          b.Text ∧
      timingText h m s ms h' m' s' ms' b.PosInfo =
        FormatTimestamp b.From ++ str " --> " ++ FormatTimestamp b.To ++ posText b.PosInfo ∧
      (FormatTimestamp b.From ++ str " --> " ++ FormatTimestamp b.To).length = 12 + 5 + 12 ∧
      h < 24 ∧ m < 60 ∧ s < 60 ∧ ms < 1000 ∧ h' < 24 ∧ m' < 60 ∧ s' < 60 ∧ ms' < 1000 ∧
      ParseTimestamp (timingText h m s ms h' m' s' ms' b.PosInfo) =
        .ok (((((h * 60 + m) * 60 + s) * 1000 + ms : Nat) : Int) * Millisecond)
          (((((h' * 60 + m') * 60 + s') * 1000 + ms' : Nat) : Int) * Millisecond)
          (posInfoOf (posText b.PosInfo)) := by
  obtain ⟨h, m, s, ms, hh, hm, hs, hms, hfrom⟩ := formatTimestamp_stampText b.From
  obtain ⟨h', m', s', ms', hh', hm', hs', hms', hto⟩ := formatTimestamp_stampText b.To
  have hrest : ((posText b.PosInfo).dropWhile isSpace).all isDot = true := by
    apply all_dropWhile
    rw [List.all_eq_true]
    intro x hx
    have := posText_no_lf b.PosInfo hpos x hx
    simp [isDot, this]
  have htext : timingText h m s ms h' m' s' ms' b.PosInfo =
      FormatTimestamp b.From ++ str " --> " ++ FormatTimestamp b.To ++ posText b.PosInfo := by
    rw [hfrom, hto]; simp [timingText]
  refine ⟨h, m, s, ms, h', m', s', ms', ?_, htext, ?_, hh, hm, hs, hms, hh', hm', hs', hms', ?_⟩
  · rw [(writeBlock_accepting b wr hwr).2, htext]
  · rw [hfrom, hto, str_arrow]
    simp [stampText_length]
  · exact parseTimestamp_canonical h m s ms h' m' s' ms' (posText b.PosInfo) (by omega)
      (by omega) (by omega) hms (by omega) (by omega) (by omega) hms' hrest

/-- Witness of C18: a block with a negative start and an end after more than 24 hours that is no
whole number of milliseconds; its timing line is `23:59:59,999 --> 01:00:00,000 X1:63`. -/
theorem writeBlock_timing_accepted_witness :
    ∃ (h m s ms h' m' s' ms' : Nat),
      (oddBlock.WriteBlock emptyBuffer).2.out =
        emptyBuffer.out ++ blockText (formatInt oddBlock.Index)
          (timingText h m s ms h' m' s' ms' oddBlock.PosInfo) oddBlock.Text ∧
      timingText h m s ms h' m' s' ms' oddBlock.PosInfo =
        FormatTimestamp oddBlock.From ++ str " --> " ++ FormatTimestamp oddBlock.To ++
          posText oddBlock.PosInfo ∧
      (FormatTimestamp oddBlock.From ++ str " --> " ++ FormatTimestamp oddBlock.To).length =
        12 + 5 + 12 ∧
      h < 24 ∧ m < 60 ∧ s < 60 ∧ ms < 1000 ∧ h' < 24 ∧ m' < 60 ∧ s' < 60 ∧ ms' < 1000 ∧
      ParseTimestamp (timingText h m s ms h' m' s' ms' oddBlock.PosInfo) =
        .ok (((((h * 60 + m) * 60 + s) * 1000 + ms : Nat) : Int) * Millisecond)
          (((((h' * 60 + m') * 60 + s') * 1000 + ms' : Nat) : Int) * Millisecond)
          (posInfoOf (posText oddBlock.PosInfo)) :=
  writeBlock_timing_accepted oddBlock emptyBuffer (by decide) (by decide)

/-! ## Rescaling changes the two times only (C20) -/

/-- C20: whatever the floating-point operations compute, `Stretch` leaves `Index`, `PosInfo` and
`Text` as they are, the new `From` is `StretchTimestamp` of the old `From` and the new `To` is
`StretchTimestamp` of the old `To`, and both are computed with one and the same coefficient,
the quotient of the two frame rates. -/
theorem stretch_frame {F : Type} (fl : Float64Ops F) (b : Block) (fpsSrc fpsDst : F) :
    (b.Stretch fl fpsSrc fpsDst).Index = b.Index ∧
    (b.Stretch fl fpsSrc fpsDst).PosInfo = b.PosInfo ∧
    (b.Stretch fl fpsSrc fpsDst).Text = b.Text ∧
    (b.Stretch fl fpsSrc fpsDst).From = StretchTimestamp fl b.From fpsSrc fpsDst ∧
    (b.Stretch fl fpsSrc fpsDst).To = StretchTimestamp fl b.To fpsSrc fpsDst ∧
    ∃ coeff : F, coeff = fl.div fpsSrc fpsDst ∧
      (b.Stretch fl fpsSrc fpsDst).From =
        wrap64 (Nanosecond * fl.toInt64 (fl.mul (fl.ofInt64 b.From) coeff)) ∧
      (b.Stretch fl fpsSrc fpsDst).To =
        wrap64 (Nanosecond * fl.toInt64 (fl.mul (fl.ofInt64 b.To) coeff)) :=
  ⟨rfl, rfl, rfl, rfl, rfl, fl.div fpsSrc fpsDst, rfl, rfl, rfl⟩

/-! ## Reading after writing (C16) -/

theorem formatInt_length (i : Int) (h0 : -(2 ^ 63 : Int) ≤ i) (h1 : i < 2 ^ 63) :
    (formatInt i).length ≤ 20 := by
  unfold formatInt
  norm_num at h0 h1
  split_ifs with hneg
  · have := formatNat_length_le 18 (-i).toNat (by norm_num; omega)
    simp only [List.length_cons]; omega
  · have := formatNat_length_le 18 i.toNat (by norm_num; omega)
    omega

theorem timingText_length (h m s ms h' m' s' ms' : Nat) (posInfo : Option Bytes) :
    (timingText h m s ms h' m' s' ms' posInfo).length = 29 + (posText posInfo).length := by
  simp only [timingText, str_arrow, List.length_append, stampText_length, List.length_cons,
    List.length_nil]
  omega

/-- The result of `ReadBlock` on the bytes of the lines of a block, each line ended by CR LF,
followed by nothing or by an empty line and more lines. -/
theorem readBlock_of_lines (indexStr timing : Bytes) (text after : List Bytes)
    (index start stop : Int) (posInfo : Option Bytes)
    (hindex : Atoi indexStr = some index)
    (htiming : ParseTimestamp timing = .ok start stop posInfo)
    (htext : ∀ line ∈ text, line ≠ [])
    (hafter : after = [] ∨ ∃ more, after = [] :: more)
    (hlf : ∀ line ∈ indexStr :: timing :: (text ++ after), ∀ x ∈ line, x ≠ 10)
    (hlen : ∀ line ∈ indexStr :: timing :: (text ++ after),
      line.length + 1 < maxScanTokenSize) :
    (ReadBlock (NewScanner
        ((indexStr :: timing :: (text ++ after)).map (fun line => line ++ crlf)).flatten)).1 =
      .block { Index := index, From := start, To := stop, PosInfo := posInfo, Text := text } := by
  have hs := scanLines_crlf _ hlf hlen
  have htail : after.map some = [] ∨ ∃ more, after.map some = some [] :: more := by
    rcases hafter with rfl | ⟨more, rfl⟩
    · exact Or.inl rfl
    · exact Or.inr ⟨more.map some, rfl⟩
  have hb := readBlock_block 0 indexStr timing text (after.map some) index start stop posInfo
    hindex htiming htext htail
  simp only [List.replicate_zero, List.nil_append] at hb
  unfold NewScanner
  rw [hs, List.map_cons, List.map_cons, List.map_append, hb]

/-- When the scanner fails inside the text of a block, `ReadBlock` returns the error "Could not
read text". -/
theorem readBlock_text_fails (indexStr timing : Bytes) (pre : List Bytes)
    (more : List (Option Bytes)) (index start stop : Int) (posInfo : Option Bytes)
    (hindex : Atoi indexStr = some index)
    (htiming : ParseTimestamp timing = .ok start stop posInfo)
    (hpre : ∀ line ∈ pre, line ≠ []) :
    (ReadBlock { token := [], err := false,
                 pending := some indexStr :: some timing :: (pre.map some ++ none :: more) }).1 =
      .error .readText := by
  have hf := skipEmpty_found 0 indexStr (some timing :: (pre.map some ++ none :: more))
    (atoi_ne_nil _ _ hindex)
    ((some indexStr :: some timing :: (pre.map some ++ none :: more)).length + 1) false
    (by simp)
  simp only [List.replicate_zero, List.nil_append] at hf
  have hr := readText_fail pre more hpre ((pre.map some ++ none :: more).length + 1) timing []
    (by simp)
  unfold ReadBlock
  simp only [hf, hindex, Scanner.Scan, htiming]
  generalize hrt : ReadBlock.readText ((pre.map some ++ none :: more).length + 1)
    { token := timing, err := false, pending := pre.map some ++ none :: more } [] = r at hr
  obtain ⟨r1, r2⟩ := r
  simp only at hr
  subst hr
  simp

theorem replicate_no_lf (n : Nat) : ∀ x ∈ List.replicate n 120, x ≠ 10 := by
  intro x hx
  rw [(List.mem_replicate.mp hx).2]
  decide

/-- C16 as stated fails: the block `longBlock` meets the conditions of the claim (times that are
whole milliseconds below 24 hours, no position info, one text line that is not empty and holds
no LF), but its text line of 65535 bytes is, with its CR, too long for the buffer of the
scanner: `ReadBlock` applied to the bytes `WriteBlock` wrote returns the error "Could not read
text". -/
theorem read_after_write_counterexample :
    longBlock.From = 0 * Millisecond ∧ longBlock.To = 1000 * Millisecond ∧
      longBlock.PosInfo = none ∧
      (∀ line ∈ longBlock.Text, line ≠ [] ∧ ∀ x ∈ line, x ≠ 10) ∧
      (ReadBlock (NewScanner (longBlock.WriteBlock emptyBuffer).2.out)).1 = .error .readText := by
  refine ⟨by decide, by decide, rfl, ?_, ?_⟩
  · intro line hline
    have hl : line = longLine := by
      have : longBlock.Text = [longLine] := rfl
      rw [this] at hline
      exact List.mem_singleton.mp hline
    subst hl
    refine ⟨?_, replicate_no_lf 65535⟩
    intro hnil
    have hlen : longLine.length = 65535 := List.length_replicate _ _
    rw [hnil] at hlen
    simp at hlen
  · have hout := (writeBlock_accepting longBlock emptyBuffer (by simp [emptyBuffer])).2
    have hidx : formatInt longBlock.Index = str "1" := by decide
    have htim : FormatTimestamp longBlock.From ++ str " --> " ++ FormatTimestamp longBlock.To ++
        posText longBlock.PosInfo = str "00:00:00,000 --> 00:00:01,000" := by decide
    have htext : longBlock.Text = [longLine] := rfl
    have hempty : emptyBuffer.out = [] := rfl
    rw [hidx, htim, htext, hempty, List.nil_append] at hout
    have hbytes : blockText (str "1") (str "00:00:00,000 --> 00:00:01,000") [longLine] =
        (str "1" ++ [13]) ++ 10 :: ((str "00:00:00,000 --> 00:00:01,000" ++ [13]) ++
          10 :: ((longLine ++ [13]) ++ [10])) := by
      simp [blockText, crlf]
    have hlong : ∀ x ∈ longLine ++ [13], x ≠ 10 := by
      intro x hx
      rcases List.mem_append.mp hx with hx | hx
      · exact replicate_no_lf 65535 x hx
      · simp at hx; omega
    have hlen : (longLine ++ [13]).length = 65536 := by
      rw [List.length_append, show longLine.length = 65535 from List.length_replicate _ _]
      rfl
    obtain ⟨junk, hj⟩ := scanLines_long (longLine ++ [13]) [10] hlong []
      (by simp [maxScanTokenSize]) (by rw [hlen]; simp [maxScanTokenSize])
    have hscan : scanLines [] (blockText (str "1") (str "00:00:00,000 --> 00:00:01,000")
        [longLine]) =
        [some (str "1"), some (str "00:00:00,000 --> 00:00:01,000"), none, some junk] := by
      rw [hbytes, scanLines_line (str "1" ++ [13]) _ (by decide) [] (by decide),
        scanLines_line (str "00:00:00,000 --> 00:00:01,000" ++ [13]) _ (by decide) []
          (by decide), hj]
      simp [dropCR_snoc]
    rw [hout]
    simp only [NewScanner, hscan]
    exact readBlock_text_fails (str "1") (str "00:00:00,000 --> 00:00:01,000") [] [some junk]
      1 0 (1000 * Millisecond) none (by decide) (by decide) (by simp)

theorem millis_fields (k : Nat) (hk : k < 86400000) :
    ((k : Int) * Millisecond =
      (((((k / 3600000 * 60 + k / 60000 % 60) * 60 + k / 1000 % 60) * 1000 + k % 1000 : Nat) :
        Int)) * Millisecond) ∧
      k / 3600000 < 24 ∧ k / 60000 % 60 < 60 ∧ k / 1000 % 60 < 60 ∧ k % 1000 < 1000 := by
  refine ⟨?_, by omega, by omega, by omega, by omega⟩
  congr 1
  push_cast
  omega

/-- C16, amended: for every block with an index in the range of `int`, times `From` and `To`
that are whole milliseconds in `[0, 24 h)`, a position info that is absent or starts with a
byte that is no blank and holds no LF, and text lines that are not empty and hold no LF, such
that moreover every line written is shorter than 65535 bytes (with its CR it has to fit the
buffer of the scanner), `ReadBlock` applied to the bytes `WriteBlock` writes, followed or not by
an empty line, returns the block itself. -/
theorem read_after_write_bounded (b : Block) (k k' : Nat)
    (hindex : -(2 ^ 63 : Int) ≤ b.Index ∧ b.Index < 2 ^ 63)
    (hfrom : b.From = (k : Int) * Millisecond ∧ k < 86400000)
    (hto : b.To = (k' : Int) * Millisecond ∧ k' < 86400000)
    (hpos : ∀ p, b.PosInfo = some p →
      (∃ c rest, p = c :: rest ∧ isSpace c = false) ∧ (∀ x ∈ p, x ≠ 10) ∧
        p.length + 31 < maxScanTokenSize)
    (htext : ∀ line ∈ b.Text,
      line ≠ [] ∧ (∀ x ∈ line, x ≠ 10) ∧ line.length + 1 < maxScanTokenSize) :
    (ReadBlock (NewScanner (b.WriteBlock emptyBuffer).2.out)).1 = .block b ∧
      (ReadBlock (NewScanner ((b.WriteBlock emptyBuffer).2.out ++ crlf))).1 = .block b := by
  obtain ⟨index, start, stop, posInfo, text⟩ := b
  simp only at hindex hfrom hto hpos htext
  obtain ⟨hf, hh, hm, hs, hms⟩ := millis_fields k hfrom.2
  obtain ⟨ht, hh', hm', hs', hms'⟩ := millis_fields k' hto.2
  have hstart := hfrom.1
  have hstop := hto.1
  rw [hf] at hstart
  rw [ht] at hstop
  subst hstart hstop
  have hout := (writeBlock_accepting
    { Index := index,
      From := (((((k / 3600000 * 60 + k / 60000 % 60) * 60 + k / 1000 % 60) * 1000 +
        k % 1000 : Nat) : Int)) * Millisecond,
      To := (((((k' / 3600000 * 60 + k' / 60000 % 60) * 60 + k' / 1000 % 60) * 1000 +
        k' % 1000 : Nat) : Int)) * Millisecond,
      PosInfo := posInfo, Text := text } emptyBuffer (by simp [emptyBuffer])).2
  simp only [formatTimestamp_fields _ _ _ _ hh hm hs hms,
    formatTimestamp_fields _ _ _ _ hh' hm' hs' hms', List.append_assoc] at hout
  have hempty : emptyBuffer.out = [] := rfl
  rw [hempty, List.nil_append] at hout
  have hatoi := atoi_formatInt index hindex.1 hindex.2
  have hparse := parseTimestamp_timingText (k / 3600000) (k / 60000 % 60) (k / 1000 % 60)
    (k % 1000) (k' / 3600000) (k' / 60000 % 60) (k' / 1000 % 60) (k' % 1000) posInfo
    (by omega) (by omega) (by omega) hms (by omega) (by omega) (by omega) hms'
    (fun p hp => ⟨(hpos p hp).1, (hpos p hp).2.1⟩)
  have hne : ∀ line ∈ text, line ≠ [] := fun l hl => (htext l hl).1
  have hposlen : (posText posInfo).length + 30 < maxScanTokenSize := by
    cases posInfo with
    | none => simp [posText, maxScanTokenSize]
    | some p =>
      have := (hpos p rfl).2.2
      have e : str " " = [32] := by decide
      simp only [posText, e, List.singleton_append, List.length_cons]
      omega
  have hlf : ∀ after : List Bytes, (∀ line ∈ after, ∀ x ∈ line, x ≠ 10) →
      ∀ line ∈ formatInt index :: timingText (k / 3600000) (k / 60000 % 60) (k / 1000 % 60)
        (k % 1000) (k' / 3600000) (k' / 60000 % 60) (k' / 1000 % 60) (k' % 1000) posInfo ::
        (text ++ after), ∀ x ∈ line, x ≠ 10 := by
    intro after hafter line hl
    simp only [List.mem_cons, List.mem_append] at hl
    rcases hl with rfl | rfl | hl | hl
    · exact formatInt_no_lf index
    · exact timingText_no_lf _ _ _ _ _ _ _ _ posInfo (fun p hp => (hpos p hp).2.1)
    · exact (htext line hl).2.1
    · exact hafter line hl
  have hlen : ∀ after : List Bytes, (∀ line ∈ after, line.length + 1 < maxScanTokenSize) →
      ∀ line ∈ formatInt index :: timingText (k / 3600000) (k / 60000 % 60) (k / 1000 % 60)
        (k % 1000) (k' / 3600000) (k' / 60000 % 60) (k' / 1000 % 60) (k' % 1000) posInfo ::
        (text ++ after), line.length + 1 < maxScanTokenSize := by
    intro after hafter line hl
    simp only [List.mem_cons, List.mem_append] at hl
    rcases hl with rfl | rfl | hl | hl
    · have := formatInt_length index hindex.1 hindex.2
      simp only [maxScanTokenSize]; omega
    · rw [timingText_length]; omega
    · exact (htext line hl).2.2
    · exact hafter line hl
  constructor
  · have := readBlock_of_lines _ _ text [] index _ _ posInfo hatoi hparse hne (Or.inl rfl)
      (hlf [] (by simp)) (hlen [] (by simp))
    rw [List.append_nil, ← blockText_flatten] at this
    rw [hout]
    exact this
  · have := readBlock_of_lines _ _ text [[]] index _ _ posInfo hatoi hparse hne
      (Or.inr ⟨[], rfl⟩) (hlf [[]] (by simp)) (hlen [[]] (by simp [maxScanTokenSize]))
    have e : ((formatInt index :: timingText (k / 3600000) (k / 60000 % 60) (k / 1000 % 60)
        (k % 1000) (k' / 3600000) (k' / 60000 % 60) (k' / 1000 % 60) (k' % 1000) posInfo ::
        (text ++ [[]])).map (fun line => line ++ crlf)).flatten =
        blockText (formatInt index) (timingText (k / 3600000) (k / 60000 % 60)
          (k / 1000 % 60) (k % 1000) (k' / 3600000) (k' / 60000 % 60) (k' / 1000 % 60)
          (k' % 1000) posInfo) text ++ crlf := by
      simp [blockText]
    rw [e] at this
    rw [hout]
    simpa only [timingText, List.append_assoc] using this

/-- Witness of C16, amended: the two blocks of the tests, written and read again, with and
without an empty line after the block. -/
theorem read_after_write_bounded_witness :
    ((ReadBlock (NewScanner (block1.WriteBlock emptyBuffer).2.out)).1 = .block block1 ∧
      (ReadBlock (NewScanner ((block1.WriteBlock emptyBuffer).2.out ++ crlf))).1 =
        .block block1) ∧
    ((ReadBlock (NewScanner (block2.WriteBlock emptyBuffer).2.out)).1 = .block block2 ∧
      (ReadBlock (NewScanner ((block2.WriteBlock emptyBuffer).2.out ++ crlf))).1 =
        .block block2) :=
  ⟨read_after_write_bounded block1 23065 25363 (by decide) (by decide) (by decide)
      (by intro p hp
          have h1 : block1.PosInfo = none := rfl
          rw [h1] at hp
          exact nomatch hp)
      (by decide),
    read_after_write_bounded block2 25442 28116 (by decide) (by decide) (by decide)
      (by intro p hp
          have : p = str "X1:63 X2:223 Y1:43 Y2:58" := by
            have h2 : block2.PosInfo = some (str "X1:63 X2:223 Y1:43 Y2:58") := rfl
            rw [h2] at hp
            exact (Option.some.inj hp).symm
          subst this
          exact ⟨⟨88, str "1:63 X2:223 Y1:43 Y2:58", by decide, by decide⟩, by decide,
            by decide⟩)
      (by decide)⟩

/-! ## Rescaling: the arithmetic of `float64` (C15) -/

theorem bitLength_go (fuel : Nat) : ∀ n : Nat, n ≤ fuel →
    n < 2 ^ bitLength.go fuel n ∧ (0 < n → 2 ^ bitLength.go fuel n ≤ 2 * n) := by
  induction fuel with
  | zero =>
    intro n hn
    have : n = 0 := by omega
    subst this
    simp [bitLength.go]
  | succ fuel ih =>
    intro n hn
    by_cases h0 : n = 0
    · subst h0
      simp [bitLength.go]
    · obtain ⟨h1, h2⟩ := ih (n / 2) (by omega)
      simp only [bitLength.go, if_neg h0, pow_succ]
      refine ⟨by omega, fun _ => ?_⟩
      by_cases h3 : 0 < n / 2
      · have := h2 h3
        omega
      · have h4 : n / 2 = 0 := by omega
        rw [h4] at h1 ⊢
        have h5 : bitLength.go fuel 0 = 0 := by cases fuel <;> simp [bitLength.go]
        rw [h5]
        omega

/-- The number `bitLength n` is the number of binary digits of a positive `n`. -/
theorem bitLength_spec (n : Nat) (h : 0 < n) :
    n < 2 ^ bitLength n ∧ 2 ^ bitLength n ≤ 2 * n :=
  ⟨(bitLength_go n n (Nat.le_refl n)).1, (bitLength_go n n (Nat.le_refl n)).2 h⟩

/-- The number `roundHalfEven num den` is within one half of `num / den`, and it is even when
`num / den` is halfway between two integers. -/
theorem roundHalfEven_spec (num den : Nat) (hden : 0 < den) :
    2 * (roundHalfEven num den * den) ≤ 2 * num + den ∧
      2 * num ≤ 2 * (roundHalfEven num den * den) + den ∧
      ((2 * (roundHalfEven num den * den) = 2 * num + den ∨
          2 * num = 2 * (roundHalfEven num den * den) + den) →
        roundHalfEven num den % 2 = 0) := by
  have hq := Nat.div_add_mod num den
  have hr := Nat.mod_lt num hden
  have hmul : (num / den + 1) * den = den * (num / den) + den := by ring
  have hmul2 : num / den * den = den * (num / den) := by ring
  unfold roundHalfEven
  simp only
  split_ifs with h1 h2 h3
  · rw [hmul2]; omega
  · rw [hmul]; omega
  · rw [hmul2]; refine ⟨by omega, by omega, fun _ => h3⟩
  · rw [hmul]; refine ⟨by omega, by omega, fun _ => by omega⟩

theorem zpow_split (e : Int) : (2 : ℚ) ^ e = (2 : ℚ) ^ e.toNat / (2 : ℚ) ^ (-e).toNat := by
  rcases le_total 0 e with h | h
  · lift e to ℕ using h
    have : (-(e : Int)).toNat = 0 := by omega
    simp [this]
  · obtain ⟨n, rfl⟩ : ∃ n : ℕ, e = -(n : Int) := ⟨(-e).toNat, by omega⟩
    have h1 : (-(n : Int)).toNat = 0 := by omega
    have h2 : (- -(n : Int)).toNat = n := by omega
    rw [h1, h2]
    simp

/-- The quotient of the two numbers that `Float64.round` rounds to an integer is
`num / den` divided by `2^e`. -/
theorem scaled_quotient (num den : Nat) (e : Int) :
    ((num * 2 ^ (-e).toNat : Nat) : ℚ) / ((den * 2 ^ e.toNat : Nat) : ℚ) =
      (num : ℚ) / den / (2 : ℚ) ^ e := by
  rw [zpow_split e]
  push_cast
  have h1 : (2 : ℚ) ^ e.toNat ≠ 0 := by positivity
  have h2 : (2 : ℚ) ^ (-e).toNat ≠ 0 := by positivity
  by_cases hden : (den : ℚ) = 0
  · simp [hden]
  · field_simp

theorem le_two_zpow_iff (num den : Nat) (hden : 0 < den) (l : Int) :
    den * 2 ^ l.toNat ≤ num * 2 ^ (-l).toNat ↔ (2 : ℚ) ^ l ≤ (num : ℚ) / den := by
  have hd : (0 : ℚ) < den := by exact_mod_cast hden
  have h2 : (0 : ℚ) < (2 : ℚ) ^ (-l).toNat := by positivity
  rw [zpow_split l, div_le_div_iff₀ h2 hd]
  constructor
  · intro h
    have : ((den * 2 ^ l.toNat : Nat) : ℚ) ≤ ((num * 2 ^ (-l).toNat : Nat) : ℚ) := by
      exact_mod_cast h
    push_cast at this
    linarith
  · intro h
    have : ((den * 2 ^ l.toNat : Nat) : ℚ) ≤ ((num * 2 ^ (-l).toNat : Nat) : ℚ) := by
      push_cast
      linarith
    exact_mod_cast this

/-- The exponent that `Float64.round` chooses: `num / den` is below `2^(e + 53)`, and it is
`2^(e + 52)` at least unless `e` is the least exponent `-1074`. -/
theorem exponent_spec (num den : Nat) (hnum : 0 < num) (hden : 0 < den) :
    -1074 ≤ Float64.exponent num den ∧
      (num : ℚ) / den < (2 : ℚ) ^ (Float64.exponent num den + 53) ∧
      (-1074 < Float64.exponent num den →
        (2 : ℚ) ^ (Float64.exponent num den + 52) ≤ (num : ℚ) / den) := by
  obtain ⟨ha1, ha2⟩ := bitLength_spec num hnum
  obtain ⟨hb1, hb2⟩ := bitLength_spec den hden
  have hn : (0 : ℚ) < num := by exact_mod_cast hnum
  have hd : (0 : ℚ) < den := by exact_mod_cast hden
  have ha1q : (num : ℚ) < (2 : ℚ) ^ (bitLength num : Int) := by
    rw [zpow_natCast]; exact_mod_cast ha1
  have ha2q : (2 : ℚ) ^ (bitLength num : Int) ≤ 2 * num := by
    rw [zpow_natCast]; exact_mod_cast ha2
  have hb1q : (den : ℚ) < (2 : ℚ) ^ (bitLength den : Int) := by
    rw [zpow_natCast]; exact_mod_cast hb1
  have hb2q : (2 : ℚ) ^ (bitLength den : Int) ≤ 2 * den := by
    rw [zpow_natCast]; exact_mod_cast hb2
  have hA : (0 : ℚ) < (2 : ℚ) ^ (bitLength num : Int) := by positivity
  have hB : (0 : ℚ) < (2 : ℚ) ^ (bitLength den : Int) := by positivity
  -- the quotient lies between `2^(l - 1)` and `2^(l + 1)`
  have hhi : (num : ℚ) / den < (2 : ℚ) ^ ((bitLength num : Int) - (bitLength den : Int) + 1) := by
    rw [zpow_add₀ (by norm_num), zpow_sub₀ (by norm_num), zpow_one, div_lt_iff₀ hd]
    have : (2 : ℚ) ^ (bitLength num : Int) / (2 : ℚ) ^ (bitLength den : Int) * 2 * den =
        (2 : ℚ) ^ (bitLength num : Int) * (2 * den / (2 : ℚ) ^ (bitLength den : Int)) := by
      field_simp
      ring
    rw [this]
    have h1 : 1 ≤ 2 * (den : ℚ) / (2 : ℚ) ^ (bitLength den : Int) := by
      rw [le_div_iff₀ hB]; linarith
    nlinarith
  have hlo : (2 : ℚ) ^ ((bitLength num : Int) - (bitLength den : Int) - 1) ≤ (num : ℚ) / den := by
    rw [zpow_sub₀ (by norm_num), zpow_sub₀ (by norm_num), zpow_one, le_div_iff₀ hd]
    have : (2 : ℚ) ^ (bitLength num : Int) / (2 : ℚ) ^ (bitLength den : Int) / 2 * den =
        (2 : ℚ) ^ (bitLength num : Int) / 2 * (den / (2 : ℚ) ^ (bitLength den : Int)) := by
      field_simp
      ring
    rw [this]
    have h1 : (den : ℚ) / (2 : ℚ) ^ (bitLength den : Int) ≤ 1 := by
      rw [div_le_iff₀ hB]; linarith
    have h2 : (0 : ℚ) ≤ (den : ℚ) / (2 : ℚ) ^ (bitLength den : Int) := by positivity
    have h3 : (2 : ℚ) ^ (bitLength num : Int) / 2 ≤ num := by linarith
    have h4 : (0 : ℚ) ≤ (2 : ℚ) ^ (bitLength num : Int) / 2 := by positivity
    nlinarith
  -- the exponent of the leading digit
  have hlead : ∃ lead : Int, Float64.exponent num den = max (lead - 52) (-1074) ∧
      (2 : ℚ) ^ lead ≤ (num : ℚ) / den ∧ (num : ℚ) / den < (2 : ℚ) ^ (lead + 1) := by
    unfold Float64.exponent
    simp only
    split_ifs with hc
    · exact ⟨_, rfl, (le_two_zpow_iff num den hden _).1 hc, hhi⟩
    · refine ⟨_, rfl, hlo, ?_⟩
      have := (le_two_zpow_iff num den hden
        ((bitLength num : Int) - (bitLength den : Int))).not.1 hc
      rw [sub_add_cancel]
      exact lt_of_not_le this
  obtain ⟨lead, he, h1, h2⟩ := hlead
  rw [he]
  refine ⟨le_max_right _ _, ?_, ?_⟩
  · refine lt_of_lt_of_le h2 (zpow_le_zpow_right₀ (by norm_num) ?_)
    have := le_max_left (lead - 52) (-1074)
    omega
  · intro hlt
    have : max (lead - 52) (-1074) = lead - 52 := by
      rcases le_total (lead - 52) (-1074) with h | h
      · rw [max_eq_right h] at hlt; omega
      · exact max_eq_left h
    rw [this]
    have : lead - 52 + 52 = lead := by ring
    rw [this]
    exact h1

theorem round_unfold (neg : Bool) (num den : Nat) (hnum : 0 < num) :
    Float64.round neg num den =
      if roundHalfEven (num * 2 ^ (-Float64.exponent num den).toNat)
          (den * 2 ^ (Float64.exponent num den).toNat) = 2 ^ 53 then
        (if 971 < Float64.exponent num den + 1 then .inf neg
          else .finite neg (2 ^ 52) (Float64.exponent num den + 1))
      else
        (if 971 < Float64.exponent num den then .inf neg
          else .finite neg (roundHalfEven (num * 2 ^ (-Float64.exponent num den).toNat)
            (den * 2 ^ (Float64.exponent num den).toNat)) (Float64.exponent num den)) := by
  unfold Float64.round
  rw [if_neg (by omega)]
  simp only
  split_ifs <;> rfl

/-- The mantissa before normalisation: within half a unit of `num / den / 2^e`, even on a
tie, at most `2^53`, and `2^52` at least unless `e` is the least exponent. -/
theorem round_mantissa (num den : Nat) (hnum : 0 < num) (hden : 0 < den) :
    |(roundHalfEven (num * 2 ^ (-Float64.exponent num den).toNat)
          (den * 2 ^ (Float64.exponent num den).toNat) : ℚ) *
        (2 : ℚ) ^ Float64.exponent num den - (num : ℚ) / den| ≤
        (2 : ℚ) ^ Float64.exponent num den / 2 ∧
      (|(roundHalfEven (num * 2 ^ (-Float64.exponent num den).toNat)
          (den * 2 ^ (Float64.exponent num den).toNat) : ℚ) *
        (2 : ℚ) ^ Float64.exponent num den - (num : ℚ) / den| =
        (2 : ℚ) ^ Float64.exponent num den / 2 →
        roundHalfEven (num * 2 ^ (-Float64.exponent num den).toNat)
          (den * 2 ^ (Float64.exponent num den).toNat) % 2 = 0) ∧
      roundHalfEven (num * 2 ^ (-Float64.exponent num den).toNat)
          (den * 2 ^ (Float64.exponent num den).toNat) ≤ 2 ^ 53 ∧
      (-1074 < Float64.exponent num den →
        2 ^ 52 ≤ roundHalfEven (num * 2 ^ (-Float64.exponent num den).toNat)
          (den * 2 ^ (Float64.exponent num den).toNat)) := by
  obtain ⟨-, hhi, hlo⟩ := exponent_spec num den hnum hden
  have hq := scaled_quotient num den (Float64.exponent num den)
  generalize Float64.exponent num den = e at hhi hlo hq ⊢
  have hD : 0 < den * 2 ^ e.toNat := Nat.mul_pos hden (by positivity)
  obtain ⟨h1, h2, h3⟩ := roundHalfEven_spec (num * 2 ^ (-e).toNat) (den * 2 ^ e.toNat) hD
  generalize roundHalfEven (num * 2 ^ (-e).toNat) (den * 2 ^ e.toNat) = r at h1 h2 h3 ⊢
  generalize num * 2 ^ (-e).toNat = N at h1 h2 h3 hq
  generalize den * 2 ^ e.toNat = D at h1 h2 h3 hq hD
  have hDq : (0 : ℚ) < D := by exact_mod_cast hD
  have hE : (0 : ℚ) < (2 : ℚ) ^ e := by positivity
  have h1q : 2 * ((r : ℚ) * D) ≤ 2 * N + D := by exact_mod_cast h1
  have h2q : 2 * (N : ℚ) ≤ 2 * ((r : ℚ) * D) + D := by exact_mod_cast h2
  -- the scaled quotient
  have hNq : (N : ℚ) = (num : ℚ) / den / (2 : ℚ) ^ e * D := by
    rw [← hq]; field_simp
  set x : ℚ := (num : ℚ) / den / (2 : ℚ) ^ e with hx
  have hxq : (num : ℚ) / den = x * (2 : ℚ) ^ e := by rw [hx]; field_simp; ring
  have hr1 : (r : ℚ) ≤ x + 1 / 2 := by
    rw [hNq] at h1q
    by_contra hc
    push_neg at hc
    nlinarith
  have hr2 : x ≤ (r : ℚ) + 1 / 2 := by
    rw [hNq] at h2q
    by_contra hc
    push_neg at hc
    nlinarith
  have hdiff : (r : ℚ) * (2 : ℚ) ^ e - (num : ℚ) / den = ((r : ℚ) - x) * (2 : ℚ) ^ e := by
    rw [hxq]; ring
  have habs : |(r : ℚ) * (2 : ℚ) ^ e - (num : ℚ) / den| = |(r : ℚ) - x| * (2 : ℚ) ^ e := by
    rw [hdiff, abs_mul, abs_of_pos hE]
  refine ⟨?_, ?_, ?_, ?_⟩
  · rw [habs]
    have : |(r : ℚ) - x| ≤ 1 / 2 := abs_le.2 ⟨by linarith, by linarith⟩
    nlinarith
  · intro htie
    rw [habs] at htie
    have hhalf : |(r : ℚ) - x| = 1 / 2 := by
      have : |(r : ℚ) - x| * (2 : ℚ) ^ e = 1 / 2 * (2 : ℚ) ^ e := by rw [htie]; ring
      exact mul_right_cancel₀ (ne_of_gt hE) this
    apply h3
    rcases abs_eq (by norm_num : (0 : ℚ) ≤ 1 / 2) |>.1 hhalf with h | h
    · left
      have : 2 * ((r : ℚ) * D) = 2 * N + D := by
        rw [hNq]
        have : (r : ℚ) = x + 1 / 2 := by linarith
        rw [this]; ring
      exact_mod_cast this
    · right
      have : 2 * (N : ℚ) = 2 * ((r : ℚ) * D) + D := by
        rw [hNq]
        have : (r : ℚ) = x - 1 / 2 := by linarith
        rw [this]; ring
      exact_mod_cast this
  · have hx53 : x < 2 ^ 53 := by
      rw [hx, div_lt_iff₀ hE]
      have : (2 : ℚ) ^ (e + 53) = 2 ^ 53 * (2 : ℚ) ^ e := by
        rw [zpow_add₀ (by norm_num)]; norm_num; ring
      linarith
    by_contra hc
    push_neg at hc
    have : (2 ^ 53 + 1 : ℚ) ≤ r := by exact_mod_cast hc
    linarith
  · intro he
    have hx52 : (2 : ℚ) ^ 52 ≤ x := by
      rw [hx, le_div_iff₀ hE]
      have : (2 : ℚ) ^ (e + 52) = 2 ^ 52 * (2 : ℚ) ^ e := by
        rw [zpow_add₀ (by norm_num)]; norm_num; ring
      have := hlo he
      linarith
    by_contra hc
    push_neg at hc
    have : (r : ℚ) + 1 ≤ 2 ^ 52 := by exact_mod_cast hc
    linarith

/-- Rounding is correct: the result of `Float64.round` for a positive `num / den` is never a
NaN; when it is finite it is a value of binary64 in canonical form, with the sign asked for,
within half a unit of its last place of `num / den`, with an even mantissa on a tie; and it is
an infinity only when `num / den` is `2^1024 - 2^970` at least, halfway from the largest finite
value to `2^1024`. -/
theorem round_spec (neg : Bool) (num den : Nat) (hnum : 0 < num) (hden : 0 < den) :
    (∀ s m e, Float64.round neg num den = .finite s m e →
      s = neg ∧ m < 2 ^ 53 ∧ -1074 ≤ e ∧ e ≤ 971 ∧ (m < 2 ^ 52 → e = -1074) ∧
        |(m : ℚ) * (2 : ℚ) ^ e - (num : ℚ) / den| ≤ (2 : ℚ) ^ e / 2 ∧
        (|(m : ℚ) * (2 : ℚ) ^ e - (num : ℚ) / den| = (2 : ℚ) ^ e / 2 → m % 2 = 0)) ∧
    (∀ s, Float64.round neg num den = .inf s →
      s = neg ∧ (2 : ℚ) ^ (1024 : Int) - (2 : ℚ) ^ (970 : Int) ≤ (num : ℚ) / den) ∧
    Float64.round neg num den ≠ .nan := by
  obtain ⟨he0, -, hlo⟩ := exponent_spec num den hnum hden
  obtain ⟨herr, htie, hr53, hr52⟩ := round_mantissa num den hnum hden
  rw [round_unfold neg num den hnum]
  generalize Float64.exponent num den = e0 at he0 hlo herr htie hr53 hr52 ⊢
  generalize roundHalfEven (num * 2 ^ (-e0).toNat) (den * 2 ^ e0.toNat) = r
    at herr htie hr53 hr52 ⊢
  have hE : (0 : ℚ) < (2 : ℚ) ^ e0 := by positivity
  have hE1 : (2 : ℚ) ^ (e0 + 1) = 2 * (2 : ℚ) ^ e0 := by
    rw [zpow_add₀ (by norm_num), zpow_one]; ring
  by_cases hr : r = 2 ^ 53
  · rw [if_pos hr]
    subst hr
    by_cases he : 971 < e0 + 1
    · rw [if_pos he]
      refine ⟨fun s m e h => by simp at h, fun s h => ?_, by simp⟩
      refine ⟨by simpa using h.symm, ?_⟩
      have h1 : (2 : ℚ) ^ (971 : Int) ≤ (2 : ℚ) ^ e0 :=
        zpow_le_zpow_right₀ (by norm_num) (by omega)
      have h2 := (abs_le.1 herr).2
      have h3 : (2 : ℚ) ^ (1024 : Int) = 2 ^ 53 * (2 : ℚ) ^ (971 : Int) := by norm_num
      have h4 : (2 : ℚ) ^ (970 : Int) = (2 : ℚ) ^ (971 : Int) / 2 := by norm_num
      push_cast at h2
      rw [h3, h4]
      nlinarith
    · rw [if_neg he]
      refine ⟨fun s m e h => ?_, fun s h => by simp at h, by simp⟩
      simp only [Float64.finite.injEq] at h
      obtain ⟨rfl, rfl, rfl⟩ := h
      have hval : ((2 ^ 52 : Nat) : ℚ) * (2 : ℚ) ^ (e0 + 1) =
          ((2 ^ 53 : Nat) : ℚ) * (2 : ℚ) ^ e0 := by
        rw [hE1]; push_cast; ring
      refine ⟨rfl, by norm_num, by omega, by omega, fun h => absurd h (by norm_num), ?_,
        fun _ => by norm_num⟩
      rw [hval, hE1]
      linarith
  · rw [if_neg hr]
    have hlt : r < 2 ^ 53 := lt_of_le_of_ne hr53 hr
    by_cases he : 971 < e0
    · rw [if_pos he]
      refine ⟨fun s m e h => by simp at h, fun s h => ?_, by simp⟩
      refine ⟨by simpa using h.symm, ?_⟩
      have h1 : (2 : ℚ) ^ (1024 : Int) ≤ (2 : ℚ) ^ (e0 + 52) :=
        zpow_le_zpow_right₀ (by norm_num) (by omega)
      have h2 := hlo (by omega)
      have h3 : (0 : ℚ) < (2 : ℚ) ^ (970 : Int) := by positivity
      linarith
    · rw [if_neg he]
      refine ⟨fun s m e h => ?_, fun s h => by simp at h, by simp⟩
      simp only [Float64.finite.injEq] at h
      obtain ⟨rfl, rfl, rfl⟩ := h
      refine ⟨rfl, hlt, he0, by omega, fun h => ?_, herr, htie⟩
      by_contra hc
      have := hr52 (by omega)
      omega

/-- The quotient of two finite numbers, the divisor not zero, is the exact quotient rounded. -/
theorem div_finite (s t : Bool) (m m' : Nat) (e e' : Int) (h : m' ≠ 0) :
    ∃ num den : Nat, 0 < den ∧
      Float64.div (.finite s m e) (.finite t m' e') = Float64.round (xor s t) num den ∧
      (num : ℚ) / den = (m : ℚ) * (2 : ℚ) ^ e / ((m' : ℚ) * (2 : ℚ) ^ e') := by
  refine ⟨m * 2 ^ (e - e').toNat, m' * 2 ^ (e' - e).toNat,
    Nat.mul_pos (Nat.pos_of_ne_zero h) (by positivity), by simp [Float64.div, h], ?_⟩
  have h1 : (2 : ℚ) ^ e = (2 : ℚ) ^ (e - e') * (2 : ℚ) ^ e' := by
    rw [← zpow_add₀ (by norm_num)]; congr 1; ring
  have h2 : (-(e - e')).toNat = (e' - e).toNat := by congr 1; ring
  have hm : (m' : ℚ) ≠ 0 := by exact_mod_cast h
  have hp : (2 : ℚ) ^ (e' - e).toNat ≠ 0 := by positivity
  have hp' : (2 : ℚ) ^ e' ≠ 0 := by positivity
  rw [h1, zpow_split (e - e'), h2]
  push_cast
  field_simp
  ring

/-- The product of two finite numbers is the exact product rounded. -/
theorem mul_finite (s t : Bool) (m m' : Nat) (e e' : Int) :
    ∃ num den : Nat, 0 < den ∧
      Float64.mul (.finite s m e) (.finite t m' e') = Float64.round (xor s t) num den ∧
      (num : ℚ) / den = (m : ℚ) * (2 : ℚ) ^ e * ((m' : ℚ) * (2 : ℚ) ^ e') := by
  refine ⟨m * m' * 2 ^ (e + e').toNat, 2 ^ (-(e + e')).toNat, by positivity,
    by simp [Float64.mul], ?_⟩
  have h1 : (2 : ℚ) ^ e * (2 : ℚ) ^ e' = (2 : ℚ) ^ (e + e') := by
    rw [← zpow_add₀ (by norm_num)]
  have hp : (2 : ℚ) ^ (-(e + e')).toNat ≠ 0 := by positivity
  have : (m : ℚ) * (2 : ℚ) ^ e * ((m' : ℚ) * (2 : ℚ) ^ e') =
      (m : ℚ) * m' * ((2 : ℚ) ^ e * (2 : ℚ) ^ e') := by ring
  rw [this, h1, zpow_split (e + e')]
  push_cast
  field_simp

/-- The conversion `float64(i)` is the integer rounded. -/
theorem ofInt64_round (i : Int) :
    Float64.ofInt64 i = Float64.round (decide (i < 0)) i.natAbs 1 ∧
      ((i.natAbs : ℚ) / (1 : Nat) = |(i : ℚ)|) := by
  refine ⟨rfl, ?_⟩
  simp [Nat.cast_natAbs]

theorem wrap64_range (x : Int) : -(2 ^ 63 : Int) ≤ wrap64 x ∧ wrap64 x < 2 ^ 63 := by
  unfold wrap64
  norm_num
  omega

/-- The conversion to integer is the truncation: when `x` is the finite number `±m * 2^e`
and `a` is the whole number with `a ≤ m * 2^e < a + 1`, the value `±a`, if it fits 64 bits, is
the result of the conversion, whatever the implementation does out of range. -/
theorem toInt64_truncates (conv : Float64 → Int) (neg : Bool) (m : Nat) (e : Int) (a : Nat)
    (hlo : a * 2 ^ (-e).toNat ≤ m * 2 ^ e.toNat)
    (hhi : m * 2 ^ e.toNat < (a + 1) * 2 ^ (-e).toNat)
    (hfit : -(2 ^ 63 : Int) ≤ (if neg then -(a : Int) else (a : Int)) ∧
      (if neg then -(a : Int) else (a : Int)) < 2 ^ 63) :
    Float64.toInt64 conv (.finite neg m e) = if neg then -(a : Int) else (a : Int) := by
  have hdiv : m * 2 ^ e.toNat / 2 ^ (-e).toNat = a := Nat.div_eq_of_lt_le hlo hhi
  simp only [Float64.toInt64, Float64.truncate, hdiv]
  rw [if_pos hfit]

theorem stretchTimestamp_of_product (conv : Float64 → Int) (d : Int) (fpsSrc fpsDst : Float64)
    (neg : Bool) (m : Nat) (e : Int) (a : Nat)
    (hp : Float64.mul (Float64.ofInt64 d) (Float64.div fpsSrc fpsDst) = .finite neg m e)
    (hlo : a * 2 ^ (-e).toNat ≤ m * 2 ^ e.toNat)
    (hhi : m * 2 ^ e.toNat < (a + 1) * 2 ^ (-e).toNat)
    (hfit : -(2 ^ 63 : Int) ≤ (if neg then -(a : Int) else (a : Int)) ∧
      (if neg then -(a : Int) else (a : Int)) < 2 ^ 63) :
    StretchTimestamp (binary64 conv) d fpsSrc fpsDst = if neg then -(a : Int) else (a : Int) := by
  simp only [StretchTimestamp, binary64, hp, toInt64_truncates conv neg m e a hlo hhi hfit,
    Nanosecond, one_mul]
  exact wrap64_of_range _ hfit.1 hfit.2

theorem product_23967_25 :
    Float64.mul (Float64.ofInt64 (23065 * Millisecond))
        (Float64.div (Float64.ofDecimal 23967 1000) (Float64.ofDecimal 25 1)) =
      .finite false 5796516121804800 (-18) := by
  rfl

/-- C15 as stated fails: for the duration of 5 * 10^18 ns and the frame rates 50 and 25 the
quotient is 2 and the product is the `float64` `4882812500000000 * 2^11 = 10^19`, a whole
number already, which is beyond the largest 64-bit integer; whatever the implementation does
with a conversion out of range, `StretchTimestamp` does not return `10^19`. -/
theorem stretchTimestamp_overflow_counterexample :
    Float64.mul (Float64.ofInt64 5000000000000000000)
        (Float64.div (Float64.ofDecimal 50 1) (Float64.ofDecimal 25 1)) =
      .finite false 4882812500000000 11 ∧
    (4882812500000000 * 2 ^ 11 : Int) = 10000000000000000000 ∧
    ∀ conv : Float64 → Int,
      StretchTimestamp (binary64 conv) 5000000000000000000 (Float64.ofDecimal 50 1)
        (Float64.ofDecimal 25 1) ≠ 10000000000000000000 := by
  refine ⟨rfl, by decide, fun conv h => ?_⟩
  have hlt := (wrap64_range (Nanosecond * (binary64 conv).toInt64
    ((binary64 conv).mul ((binary64 conv).ofInt64 5000000000000000000)
      ((binary64 conv).div (Float64.ofDecimal 50 1) (Float64.ofDecimal 25 1))))).2
  have h2 : StretchTimestamp (binary64 conv) 5000000000000000000 (Float64.ofDecimal 50 1)
      (Float64.ofDecimal 25 1) < 2 ^ 63 := hlt
  rw [h] at h2
  exact absurd h2 (by decide)

/-- C15, amended: whatever the implementation does with a conversion out of range, when the
`float64` product of `float64(d)` and the `float64` quotient `fpsSrc / fpsDst` is the finite
number `±m * 2^e`, and `a` is its magnitude with the fraction discarded (the whole number with
`a ≤ m * 2^e < a + 1`), and `±a` fits a 64-bit integer, then `StretchTimestamp d fpsSrc fpsDst`
is `±a`: the product truncated toward zero. In particular
`StretchTimestamp (23065 ms) 23.967 25 = 22111954200`. -/
theorem stretchTimestamp_truncates (conv : Float64 → Int) :
    (∀ (d : Int) (fpsSrc fpsDst : Float64) (neg : Bool) (m : Nat) (e : Int) (a : Nat),
      Float64.mul (Float64.ofInt64 d) (Float64.div fpsSrc fpsDst) = .finite neg m e →
      a * 2 ^ (-e).toNat ≤ m * 2 ^ e.toNat →
      m * 2 ^ e.toNat < (a + 1) * 2 ^ (-e).toNat →
      (-(2 ^ 63 : Int) ≤ (if neg then -(a : Int) else (a : Int)) ∧
        (if neg then -(a : Int) else (a : Int)) < 2 ^ 63) →
      StretchTimestamp (binary64 conv) d fpsSrc fpsDst =
        if neg then -(a : Int) else (a : Int)) ∧
    StretchTimestamp (binary64 conv) (23065 * Millisecond) (Float64.ofDecimal 23967 1000)
      (Float64.ofDecimal 25 1) = 22111954200 :=
  ⟨fun d fpsSrc fpsDst neg m e a hp hlo hhi hfit =>
      stretchTimestamp_of_product conv d fpsSrc fpsDst neg m e a hp hlo hhi hfit,
    stretchTimestamp_of_product conv (23065 * Millisecond) (Float64.ofDecimal 23967 1000)
      (Float64.ofDecimal 25 1) false 5796516121804800 (-18) 22111954200 product_23967_25
      (by decide) (by decide) (by decide)⟩

/-- Witness of C15, amended: a negative duration of 1 ms rescaled from 25 to 23.976 frames per
second, where the product `-1042709.376...` is truncated toward zero and not rounded down,
and the rescaling of the tests. -/
theorem stretchTimestamp_truncates_witness :
    StretchTimestamp (binary64 (fun _ => 0)) (-1000000) (Float64.ofDecimal 25 1)
        (Float64.ofDecimal 23976 1000) = -1042709 ∧
      StretchTimestamp (binary64 (fun _ => 0)) (23065 * Millisecond)
        (Float64.ofDecimal 23967 1000) (Float64.ofDecimal 25 1) = 22111954200 :=
  ⟨(stretchTimestamp_truncates (fun _ => 0)).1 (-1000000) (Float64.ofDecimal 25 1)
      (Float64.ofDecimal 23976 1000) true 8956805338672007 (-33) 1042709 (by rfl) (by decide)
      (by decide) (by decide),
    (stretchTimestamp_truncates (fun _ => 0)).2⟩

end SrtTools
